import Mathlib

/-!
# Verification development for `src/benchmark.c`

A shallow embedding of the synthetic benchmark (compute kernel, memory kernel,
parallel executor, statistics reporter, orchestrator) together with the
properties established about it.

Conventions of the embedding (LP64 target, GCC conversions):

* `unsigned` is a `Nat` reduced modulo `2^32`; `int` and `long` are `Int`
  reduced into the two's-complement range of 32 respectively 64 bits.
* Loops whose exit depends on machine counters are run by `whileLoop` with
  an explicit iteration budget; `none` means the budget ran out.
* A `double` that holds an integer is an `Int` rounded to 53 significant
  bits (`roundDouble`); the statistics are taken over an ordered field with
  guarded division, `none` standing for the non-finite value of a zero
  divisor.
-/

namespace Benchmark

/-! ## Machine arithmetic -/

/-- Largest value of `unsigned` (`UINT_MAX` of `limits.h`). -/
def UINT_MAX : Nat := 4294967295

/-- Conversion of an integer value to `unsigned` (reduction modulo `2^32`). -/
def toUnsigned (x : Int) : Nat := (x % 4294967296).toNat

/-- Conversion of an integer value to `int` (two's-complement reduction, as GCC defines it). -/
def toInt32 (x : Int) : Int := (x + 2147483648) % 4294967296 - 2147483648

/-- Result of a `long` operation whose exact value is `x` (two's-complement wrap-around). -/
def toLong (x : Int) : Int := (x + 9223372036854775808) % 18446744073709551616 - 9223372036854775808

/-- Nearest `double` to the integer `x`: 53 significant bits, ties to even. -/
def roundDouble (x : Int) : Int :=
  let m := x.natAbs
  if m < 9007199254740992 then x
  else
    let e := Nat.log2 m - 52
    let q := m / 2 ^ e
    let r := m % 2 ^ e
    let q1 := if 2 ^ e < 2 * r ∨ (2 * r = 2 ^ e ∧ q % 2 = 1) then q + 1 else q
    Int.sign x * ((q1 * 2 ^ e : Nat) : Int)

/-- Addition of two integer-valued `double`s. -/
def fadd (a b : Int) : Int := roundDouble (a + b)

/-! ## Loops -/

/-- A `for`/`while` loop: as long as `cond` holds run `body`; `fuel` bounds the
number of tests of `cond`, and `none` is returned when it is used up. -/
def whileLoop {σ : Type} (cond : σ → Bool) (body : σ → Option σ) : Nat → σ → Option σ
  | 0, _ => none
  | fuel + 1, s => if cond s then (body s).bind (whileLoop cond body fuel) else some s

/-! ## Kernels -/

/-- State of the inner loop of `kernel_cpu`: the counter `j`, the accumulator
`sum`, and the number of executions of the loop body so far. -/
structure CpuInner where
  j : Int
  sum : Int
  iters : Nat
deriving DecidableEq, Repr

/-- State of the outer loop of `kernel_cpu`: the counter `i`, the accumulator
`sum`, and the number of executions of the inner loop body so far. -/
structure CpuOuter where
  i : Nat
  sum : Int
  iters : Nat
deriving DecidableEq, Repr

/-- Body `sum += i + j` of the inner loop of `kernel_cpu`, followed by `j++`. -/
def kernel_cpu_body (i : Nat) (t : CpuInner) : CpuInner :=
  ⟨toLong (t.j + 1), toLong (t.sum + toLong ((i : Int) + t.j)), t.iters + 1⟩

/-- Inner loop `for (long j = 0; j < load; j++) sum += i + j;` of `kernel_cpu`. -/
def kernel_cpu_inner (fuel : Nat) (load : Int) (s : CpuOuter) : Option CpuInner :=
  whileLoop (fun t => decide (t.j < load)) (fun t => some (kernel_cpu_body s.i t)) fuel
    ⟨0, s.sum, s.iters⟩

/-- Both loops of `kernel_cpu`, started from `sum = 0`. -/
def kernel_cpu_run (fuel : Nat) (n : Nat) (load : Int) : Option CpuOuter :=
  whileLoop (fun s => decide (s.i < n))
    (fun s => (kernel_cpu_inner fuel load s).map
      (fun t => ⟨(s.i + 1) % 4294967296, t.sum, t.iters⟩))
    fuel ⟨0, 0, 0⟩

/-- The value `kernel_cpu(n, load)` returns. -/
def kernel_cpu (fuel : Nat) (n : Nat) (load : Int) : Option Int :=
  (kernel_cpu_run fuel n load).map CpuOuter.sum

/-- State of the inner loop of `kernel_cache`: the counter `j`, the array, and
the number of increments performed so far. -/
structure CacheInner where
  j : Nat
  a : List Nat
  incs : Nat
deriving DecidableEq, Repr

/-- State of the outer loop of `kernel_cache`. -/
structure CacheOuter where
  i : Nat
  a : List Nat
  incs : Nat
deriving DecidableEq, Repr

/-- Body `a[off]++` of the inner loop of `kernel_cache`, followed by `j++`
(`j` and the array elements are `unsigned`). -/
def kernel_cache_body (off : Nat) (t : CacheInner) : CacheInner :=
  ⟨(t.j + 1) % 4294967296, t.a.set off ((t.a.getD off 0 + 1) % 4294967296), t.incs + 1⟩

/-- Inner loop `for (unsigned j = 0; j < load; j++) a[off]++;` of `kernel_cache`;
the test compares the `unsigned` counter with the `long` bound as `long`s. -/
def kernel_cache_inner (fuel : Nat) (off : Nat) (load : Int) (s : CacheOuter) :
    Option CacheInner :=
  whileLoop (fun t => decide ((t.j : Int) < load)) (fun t => some (kernel_cache_body off t)) fuel
    ⟨0, s.a, s.incs⟩

/-- Both loops of `kernel_cache`. -/
def kernel_cache_run (fuel : Nat) (a : List Nat) (off n : Nat) (load : Int) :
    Option CacheOuter :=
  whileLoop (fun s => decide (s.i < n))
    (fun s => (kernel_cache_inner fuel off load s).map
      (fun t => ⟨(s.i + 1) % 4294967296, t.a, t.incs⟩))
    fuel ⟨0, a, 0⟩

/-- The array as `kernel_cache(a, off, n, load)` leaves it. -/
def kernel_cache (fuel : Nat) (a : List Nat) (off n : Nat) (load : Int) : Option (List Nat) :=
  (kernel_cache_run fuel a off n load).map CacheOuter.a

/-! ## Statistics reporter -/

/-- Division of two `double`s over exact arithmetic; `none` is the non-finite
value (infinity or NaN) that a zero divisor produces. -/
def fdiv {α : Type} [LinearOrderedField α] (a b : α) : Option α :=
  if b = 0 then none else some (a / b)

/-- The locals `min`, `max`, `total` of `benchmark_dump`. -/
structure Scan (α : Type) where
  min : α
  max : α
  total : α

/-- Body of the first loop of `benchmark_dump`, for `wtotal = respvar[i]`. -/
def dump_scan_body {α : Type} [LinearOrderedField α] (s : Scan α) (wtotal : α) : Scan α :=
  ⟨if s.min > wtotal then wtotal else s.min,
   if s.max < wtotal then wtotal else s.max,
   s.total + wtotal⟩

/-- First loop of `benchmark_dump`, from `min = UINT_MAX; max = 0; total = 0`. -/
def dump_scan {α : Type} [LinearOrderedField α] (respvar : List α) : Scan α :=
  respvar.foldl dump_scan_body ⟨(UINT_MAX : α), 0, 0⟩

/-- Second loop of `benchmark_dump`: `stddev += pow(respvar[i] - mean, 2)` from `stddev = 0`. -/
def dump_squares {α : Type} [LinearOrderedField α] (respvar : List α) (mean : α) : α :=
  respvar.foldl (fun stddev x => stddev + (x - mean) ^ 2) 0

/-- What `benchmark_dump` computes: the five printed values `max`, `total`,
`cov`, `slowdown`, `cost`, and the locals `min`, `mean`, `stddev` they are made from. -/
structure Stats (α : Type) where
  min : α
  max : α
  total : α
  mean : Option α
  stddev : Option α
  cov : Option α
  slowdown : Option α
  cost : α

/-- The function `benchmark_dump(respvar, nthreads, prefix)`; the array of
`nthreads` entries is the list `respvar`, and `sqrt` is the square root of `math.h`. -/
def benchmark_dump {α : Type} [LinearOrderedField α] (sqrt : α → α) (respvar : List α) :
    Stats α :=
  let nthreads : α := (respvar.length : α)
  let s := dump_scan respvar
  let mean := fdiv s.total nthreads
  let stddev := mean.bind (fun m => (fdiv (dump_squares respvar m) nthreads).map sqrt)
  ⟨s.min, s.max, s.total, mean, stddev,
   stddev.bind (fun sd => mean.bind (fun m => fdiv sd m)),
   fdiv s.max s.min,
   nthreads * s.max⟩

/-! ## Parallel executor -/

/-- Private variables of one thread of the parallel region. -/
structure Worker (α : Type) where
  private_load : Int
  private_time : α
  sum : Int

/-- What the OpenMP runtime contributes to a parallel region: `sched tid` lists,
in order, the loop indices it dispatches to thread `tid`, and `elapsed i` is the
difference of the two `omp_get_wtime` readings taken around iteration `i`. -/
structure Runtime (α : Type) where
  sched : Nat → List Nat
  elapsed : Nat → α

/-- One iteration of the loop of `benchmark_cpu`, for index `i`:
`private_load += work = tasks[i]` with `int work`, then the timed kernel call. -/
def cpu_task {α : Type} [LinearOrderedField α] (fuel : Nat) (tasks : List Nat) (load : Int)
    (rt : Runtime α) (w : Worker α) (i : Nat) : Option (Worker α) :=
  let work : Int := toInt32 (tasks.getD i 0)
  (kernel_cpu fuel (toUnsigned work) load).map
    (fun r => ⟨fadd w.private_load work, w.private_time + rt.elapsed i, toLong (w.sum + r)⟩)

/-- One thread of the parallel region of `benchmark_cpu`: the accumulators it
stores into `loads[tid]` and `times[tid]`. -/
def cpu_worker {α : Type} [LinearOrderedField α] (fuel : Nat) (tasks : List Nat) (load : Int)
    (rt : Runtime α) (tid : Nat) : Option (Worker α) :=
  (rt.sched tid).foldlM (cpu_task fuel tasks load rt) ⟨0, 0, 0⟩

/-- Run `f` for the threads `tids`, collecting slot `tid` of the result arrays. -/
def forThreads {β : Type} (f : Nat → Option β) : List Nat → Option (List β)
  | [] => some []
  | tid :: rest => (f tid).bind (fun w => (forThreads f rest).map (fun ws => w :: ws))

/-- The parallel region of `benchmark_cpu` with `nthreads` threads: entry `tid`
of the result is what thread `tid` stores into `loads[tid]` and `times[tid]`.
The runtime is taken to grant the `nthreads` threads requested; the threads
share nothing but the constant `tasks`, so they are run one after the other. -/
def cpu_region {α : Type} [LinearOrderedField α] (fuel : Nat) (tasks : List Nat)
    (nthreads : Int) (load : Int) (rt : Runtime α) : Option (List (Worker α)) :=
  forThreads (cpu_worker fuel tasks load rt) (List.range nthreads.toNat)

/-- One iteration of the loop of `benchmark_cache`, for index `i`:
`private_load += work = array[i]` with `int work`, then the timed kernel call
on the shared array. -/
def cache_task {α : Type} [LinearOrderedField α] (fuel : Nat) (load : Int) (rt : Runtime α)
    (st : List Nat × Worker α) (i : Nat) : Option (List Nat × Worker α) :=
  let work : Int := toInt32 (st.1.getD i 0)
  (kernel_cache fuel st.1 i (toUnsigned work) load).map
    (fun array =>
      (array, ⟨fadd st.2.private_load work, st.2.private_time + rt.elapsed i, st.2.sum⟩))

/-- One thread of the parallel region of `benchmark_cache`, from the shared array `array`. -/
def cache_worker {α : Type} [LinearOrderedField α] (fuel : Nat) (load : Int) (rt : Runtime α)
    (array : List Nat) (tid : Nat) : Option (List Nat × Worker α) :=
  (rt.sched tid).foldlM (cache_task fuel load rt) (array, ⟨0, 0, 0⟩)

/-- The threads `tids` of the parallel region of `benchmark_cache`, one after
the other on the shared array (iteration `i` touches element `i` only). -/
def cache_threads {α : Type} [LinearOrderedField α] (fuel : Nat) (load : Int) (rt : Runtime α) :
    List Nat → List Nat → Option (List Nat × List (Worker α))
  | array, [] => some (array, [])
  | array, tid :: rest =>
    (cache_worker fuel load rt array tid).bind (fun r =>
      (cache_threads fuel load rt r.1 rest).map (fun q => (q.1, r.2 :: q.2)))

/-- The parallel region of `benchmark_cache`, after `array[i] = tasks[i]` for `i < ntasks`. -/
def cache_region {α : Type} [LinearOrderedField α] (fuel : Nat) (tasks : List Nat)
    (ntasks : Nat) (nthreads : Int) (load : Int) (rt : Runtime α) :
    Option (List (Worker α)) :=
  (cache_threads fuel load rt (tasks.take ntasks) (List.range nthreads.toNat)).map Prod.snd

/-- The `loads` array after a parallel region. -/
def loadsOf {α : Type} (ws : List (Worker α)) : List Int := ws.map Worker.private_load

/-- The `times` array after a parallel region. -/
def timesOf {α : Type} (ws : List (Worker α)) : List α := ws.map Worker.private_time

/-! ## Initialisation of the metric arrays -/

/-- The call `memset(mem, c, n)` on a region of bytes. -/
def memset (mem : List Nat) (c : Nat) (n : Nat) : List Nat :=
  (mem.take n).map (fun _ => c) ++ mem.drop n

/-- Size of a `double` in bytes. -/
def sizeof_double : Nat := 8

/-- Size of an `unsigned` in bytes. -/
def sizeof_unsigned : Nat := 4

/-- The two `memset` calls of `benchmark_cpu` and of `benchmark_cache` on the bytes
of `times` and `loads` (each array is `nthreads` doubles of uninitialised stack):
`memset(times, 0, nthreads*sizeof(double)); memset(loads, 0, nthreads*sizeof(unsigned));`. -/
def init_metrics (nthreads : Int) (times loads : List Nat) : List Nat × List Nat :=
  (memset times 0 (nthreads.toNat * sizeof_double),
   memset loads 0 (nthreads.toNat * sizeof_unsigned))

/-- The bytes of entry `k` of an array of doubles. -/
def slot (mem : List Nat) (k : Nat) : List Nat := (mem.drop (sizeof_double * k)).take sizeof_double

/-- A `double` holds the value zero when all its bits except the sign bit are
clear (the sign is the top bit of the last byte). -/
def slotIsZero (bytes : List Nat) : Bool :=
  bytes.length == 8 && (bytes.take 7).all (fun b => b == 0) && (bytes.getD 7 0 % 128 == 0)

/-! ## Orchestrator -/

/-- The four response variables dumped. -/
inductive Label
  | cpu_load
  | cpu_time
  | cache_load
  | cache_time
deriving DecidableEq, Repr

/-- Effects of a run that are visible outside the executor. -/
inductive Event (α : Type)
  | smalloc (bytes : Nat)
  | omp_set_workload (tasks : List Nat) (ntasks : Nat)
  | dump (label : Label) (stats : Stats α)
  | free

/-- The function `benchmark_cpu(tasks, ntasks, nthreads, load)`: its effects in
order, or `none` when the parallel region does not finish within `fuel`.
Allocation is taken to succeed (`smalloc` is declared in `util.h`). -/
def benchmark_cpu {α : Type} [LinearOrderedField α] (sqrt : α → α) (fuel : Nat)
    (rt : Runtime α) (tasks : List Nat) (ntasks : Nat) (nthreads : Int) (load : Int) :
    Option (List (Event α)) :=
  (cpu_region fuel tasks nthreads load rt).map (fun ws =>
    [Event.smalloc (ntasks * sizeof_unsigned),
     Event.omp_set_workload (tasks.take ntasks) ntasks,
     Event.dump Label.cpu_load (benchmark_dump sqrt ((loadsOf ws).map (fun x : Int => (x : α)))),
     Event.dump Label.cpu_time (benchmark_dump sqrt (timesOf ws)),
     Event.free])

/-- The function `benchmark_cache(tasks, ntasks, nthreads, load)`. -/
def benchmark_cache {α : Type} [LinearOrderedField α] (sqrt : α → α) (fuel : Nat)
    (rt : Runtime α) (tasks : List Nat) (ntasks : Nat) (nthreads : Int) (load : Int) :
    Option (List (Event α)) :=
  (cache_region fuel tasks ntasks nthreads load rt).map (fun ws =>
    [Event.smalloc (ntasks * sizeof_unsigned),
     Event.smalloc (ntasks * sizeof_unsigned),
     Event.omp_set_workload (tasks.take ntasks) ntasks,
     Event.dump Label.cache_load (benchmark_dump sqrt ((loadsOf ws).map (fun x : Int => (x : α)))),
     Event.dump Label.cache_time (benchmark_dump sqrt (timesOf ws)),
     Event.free,
     Event.free])

/-- How a call of `benchmark` ends: a failed `assert` aborts the process with
the effects produced until then; otherwise the call runs the executors, whose
effects are `none` if they do not finish within the fuel. -/
inductive Outcome (α : Type)
  | aborted (trace : List (Event α))
  | ran (trace : Option (List (Event α)))

/-- The function `benchmark(tasks, ntasks, nthreads, load)`; `tasks = none` is
the null pointer, `cache` tells whether `_CACHE_BENCHMARK_` is defined, and
`rt_cpu`, `rt_cache` are the runtime's behaviour in the two parallel regions. -/
def benchmark {α : Type} [LinearOrderedField α] (sqrt : α → α) (fuel : Nat) (cache : Bool)
    (rt_cpu rt_cache : Runtime α) (tasks : Option (List Nat)) (ntasks : Nat)
    (nthreads : Int) (load : Int) : Outcome α :=
  match tasks with
  | none => Outcome.aborted []
  | some ts =>
    if ¬ (ntasks > 0) then Outcome.aborted []
    else if ¬ (nthreads > 0) then Outcome.aborted []
    else if ¬ (load > 0) then Outcome.aborted []
    else
      Outcome.ran
        ((benchmark_cpu sqrt fuel rt_cpu ts ntasks nthreads load).bind (fun t1 =>
          if cache then
            (benchmark_cache sqrt fuel rt_cache ts ntasks nthreads load).map (fun t2 => t1 ++ t2)
          else some t1))

/-! ## Closed forms of the kernels -/

/-- The sum the specification gives for `kernel_cpu(n, load)`: over `i < n`
and `j < load` of `i + j`, in exact integers. -/
def kernel_cpu_spec (n : Nat) (load : Int) : Int :=
  ∑ i in Finset.range n, ∑ j in Finset.range load.toNat, ((i : Int) + (j : Int))

/-- One pass of the outer loop of `kernel_cpu` in closed form. -/
def cpu_pass (load : Int) (s : CpuOuter) : CpuOuter :=
  ⟨(s.i + 1) % 4294967296,
   toLong (s.sum + ∑ j in Finset.range load.toNat, ((s.i : Int) + (j : Int))),
   s.iters + load.toNat⟩

/-- One pass of the outer loop of `kernel_cache` in closed form. -/
def cache_pass (off : Nat) (load : Int) (s : CacheOuter) : CacheOuter :=
  ⟨(s.i + 1) % 4294967296,
   s.a.set off ((s.a.getD off 0 + load.toNat) % 4294967296),
   s.incs + load.toNat⟩

/-! ## The formulas of the specification -/

/-- The mean of the specification: `sum(metric) / K`. -/
def mean_spec {α : Type} [LinearOrderedField α] (metric : List α) : α :=
  metric.sum / (metric.length : α)

/-- The population standard deviation of the specification:
`sqrt(sum((x - mean)^2 for x in metric) / K)`. -/
def stddev_spec {α : Type} [LinearOrderedField α] (sqrt : α → α) (metric : List α) : α :=
  sqrt ((metric.map (fun x => (x - mean_spec metric) ^ 2)).sum / (metric.length : α))

/-- A smallest element of `metric`. -/
def IsMin {α : Type} [LinearOrderedField α] (metric : List α) (m : α) : Prop :=
  m ∈ metric ∧ ∀ x ∈ metric, m ≤ x

/-- A largest element of `metric`. -/
def IsMax {α : Type} [LinearOrderedField α] (metric : List α) (m : α) : Prop :=
  m ∈ metric ∧ ∀ x ∈ metric, x ≤ m

/-! ## Schedules -/

/-- The runtime dispatches each index `0 .. ntasks-1` to exactly one of the
`nthreads` threads, exactly once. -/
def Dispatches {α : Type} (rt : Runtime α) (nthreads : Int) (ntasks : Nat) : Prop :=
  List.Perm ((List.range nthreads.toNat).map rt.sched).flatten (List.range ntasks)

/-- A runtime that dispatches all `n` indices, in order, to thread `0`, and
measures a duration of zero for each. -/
def serial (α : Type) [LinearOrderedField α] (n : Nat) : Runtime α :=
  ⟨fun tid => if tid = 0 then List.range n else [], fun _ => 0⟩

/-- One iteration of the loop of `benchmark_cpu` once the kernel has returned. -/
def cpu_step {α : Type} [LinearOrderedField α] (tasks : List Nat) (load : Int)
    (rt : Runtime α) (w : Worker α) (i : Nat) : Worker α :=
  ⟨fadd w.private_load (toInt32 (tasks.getD i 0)), w.private_time + rt.elapsed i,
   toLong (w.sum + toLong (kernel_cpu_spec (toUnsigned (toInt32 (tasks.getD i 0))) load))⟩

/-! ## Loop lemmas -/

theorem whileLoop_iterate {σ : Type} (cond : σ → Bool) (body : σ → Option σ) (f : σ → σ)
    (k : Nat) : ∀ (s : σ) (fuel : Nat), k < fuel →
      (∀ m, m < k → cond (f^[m] s) = true ∧ body (f^[m] s) = some (f (f^[m] s))) →
      cond (f^[k] s) = false →
      whileLoop cond body fuel s = some (f^[k] s) := by
  induction k with
  | zero =>
    intro s fuel hfuel _ hend
    obtain ⟨fuel, rfl⟩ : ∃ g, fuel = g + 1 := ⟨fuel - 1, by omega⟩
    simp only [Function.iterate_zero, id_eq] at hend
    simp [whileLoop, hend]
  | succ k ih =>
    intro s fuel hfuel hstep hend
    obtain ⟨fuel, rfl⟩ : ∃ g, fuel = g + 1 := ⟨fuel - 1, by omega⟩
    have h0 := hstep 0 (Nat.succ_pos k)
    simp only [Function.iterate_zero, id_eq] at h0
    have hrec := ih (f s) fuel (by omega)
      (fun m hm => by simpa [Function.iterate_succ_apply] using hstep (m + 1) (by omega))
      (by simpa [Function.iterate_succ_apply] using hend)
    simp [whileLoop, h0.1, h0.2, hrec, Function.iterate_succ_apply]

theorem whileLoop_exhaust {σ : Type} (cond : σ → Bool) (body : σ → Option σ) (f : σ → σ) :
    ∀ (fuel : Nat) (s : σ),
      (∀ m, m < fuel → cond (f^[m] s) = true ∧ body (f^[m] s) = some (f (f^[m] s))) →
      whileLoop cond body fuel s = none := by
  intro fuel
  induction fuel with
  | zero => intro s _; rfl
  | succ fuel ih =>
    intro s hstep
    have h0 := hstep 0 (Nat.succ_pos fuel)
    simp only [Function.iterate_zero, id_eq] at h0
    have hrec := ih (f s)
      (fun m hm => by simpa [Function.iterate_succ_apply] using hstep (m + 1) (by omega))
    simp [whileLoop, h0.1, h0.2, hrec]

/-! ## Machine arithmetic lemmas -/

theorem toLong_of_range (x : Int) (h1 : -9223372036854775808 ≤ x)
    (h2 : x < 9223372036854775808) : toLong x = x := by
  unfold toLong; omega

theorem toLong_add (a b : Int) : toLong (toLong a + toLong b) = toLong (a + b) := by
  unfold toLong; omega

theorem toLong_idem (a : Int) : toLong (toLong a) = toLong a := by
  unfold toLong; omega

theorem toLong_add_left (a b : Int) : toLong (toLong a + b) = toLong (a + b) := by
  unfold toLong; omega

/-! ## The compute kernel -/

theorem kernel_cpu_body_iterate (i : Nat) (y : Int) (c : Nat) (hy : toLong y = y) (m : Nat)
    (hm : (m : Int) < 9223372036854775808) :
    (kernel_cpu_body i)^[m] ⟨0, y, c⟩ =
      ⟨(m : Int), toLong (y + ∑ j in Finset.range m, ((i : Int) + (j : Int))), c + m⟩ := by
  induction m with
  | zero => simp [hy]
  | succ m ih =>
    rw [Function.iterate_succ_apply', ih (by omega)]
    simp only [kernel_cpu_body, Finset.sum_range_succ, CpuInner.mk.injEq]
    refine ⟨?_, ?_, by omega⟩
    · rw [toLong_of_range] <;> push_cast <;> omega
    · rw [toLong_add]; congr 1; ring

theorem kernel_cpu_inner_eq (fuel : Nat) (load : Int) (s : CpuOuter)
    (hl : load < 9223372036854775808) (hs : toLong s.sum = s.sum) (hfuel : load.toNat < fuel) :
    kernel_cpu_inner fuel load s =
      some ⟨(load.toNat : Int),
        toLong (s.sum + ∑ j in Finset.range load.toNat, ((s.i : Int) + (j : Int))),
        s.iters + load.toNat⟩ := by
  unfold kernel_cpu_inner
  have hL : ((load.toNat : Nat) : Int) < 9223372036854775808 := by omega
  rw [whileLoop_iterate _ _ (kernel_cpu_body s.i) load.toNat _ fuel hfuel, 
    kernel_cpu_body_iterate s.i s.sum s.iters hs load.toNat hL]
  · intro m hm
    rw [kernel_cpu_body_iterate s.i s.sum s.iters hs m (by omega)]
    simp only [decide_eq_true_eq, and_true]
    omega
  · rw [kernel_cpu_body_iterate s.i s.sum s.iters hs load.toNat hL]
    simp only [decide_eq_false_iff_not, not_lt]
    omega

theorem kernel_cpu_inner_none (fuel : Nat) (load : Int) (s : CpuOuter)
    (hl : load < 9223372036854775808) (hs : toLong s.sum = s.sum) (hfuel : fuel ≤ load.toNat) :
    kernel_cpu_inner fuel load s = none := by
  unfold kernel_cpu_inner
  apply whileLoop_exhaust _ _ (kernel_cpu_body s.i)
  intro m hm
  rw [kernel_cpu_body_iterate s.i s.sum s.iters hs m (by omega)]
  simp only [decide_eq_true_eq, and_true]
  omega

theorem cpu_pass_iterate (load : Int) (m : Nat) (hm : m < 4294967296) :
    (cpu_pass load)^[m] ⟨0, 0, 0⟩ =
      ⟨m, toLong (kernel_cpu_spec m load), m * load.toNat⟩ := by
  induction m with
  | zero => simp [kernel_cpu_spec, toLong]
  | succ m ih =>
    rw [Function.iterate_succ_apply', ih (by omega)]
    simp only [cpu_pass, kernel_cpu_spec, Finset.sum_range_succ, CpuOuter.mk.injEq]
    refine ⟨by omega, ?_, by ring⟩
    rw [toLong_add_left]

theorem cpu_pass_sum_wrapped (load : Int) (m : Nat) (hm : m < 4294967296) :
    toLong ((cpu_pass load)^[m] ⟨0, 0, 0⟩).sum = ((cpu_pass load)^[m] ⟨0, 0, 0⟩).sum := by
  rw [cpu_pass_iterate load m hm]; exact toLong_idem _

/-- The outcome of `kernel_cpu_run` for every fuel: with enough fuel the outer
counter ends at `n`, the accumulator holds the exact sum wrapped to a `long`,
and the inner body has run `n * load` times; with too little fuel there is no result. -/
theorem kernel_cpu_run_eq (fuel n : Nat) (load : Int) (hn : n < 4294967296)
    (hl : load < 9223372036854775808) :
    kernel_cpu_run fuel n load =
      if n < fuel ∧ (n = 0 ∨ load.toNat < fuel) then
        some ⟨n, toLong (kernel_cpu_spec n load), n * load.toNat⟩
      else none := by
  unfold kernel_cpu_run
  split_ifs with h
  · obtain ⟨h1, h2⟩ := h
    rw [whileLoop_iterate _ _ (cpu_pass load) n _ fuel h1, cpu_pass_iterate load n hn]
    · intro m hm
      have hw := cpu_pass_sum_wrapped load m (by omega)
      have hf : load.toNat < fuel := by omega
      rw [kernel_cpu_inner_eq fuel load _ hl hw hf]
      rw [cpu_pass_iterate load m (by omega)]
      simp [cpu_pass, hm]
    · rw [cpu_pass_iterate load n hn]; simp
  · by_cases h1 : n < fuel
    · have hn0 : n ≠ 0 := fun h0 => h ⟨h1, Or.inl h0⟩
      have hf : fuel ≤ load.toNat := by
        by_contra hc; exact h ⟨h1, Or.inr (by omega)⟩
      obtain ⟨g, rfl⟩ : ∃ g, fuel = g + 1 := ⟨fuel - 1, by omega⟩
      have hin := kernel_cpu_inner_none (g + 1) load ⟨0, 0, 0⟩ hl (by simp [toLong]) hf
      have hc : decide (0 < n) = true := by simp; omega
      simp [whileLoop, hin, hc]
    · by_cases hf : load.toNat < fuel
      · apply whileLoop_exhaust _ _ (cpu_pass load)
        intro m hm
        have hw := cpu_pass_sum_wrapped load m (by omega)
        rw [kernel_cpu_inner_eq fuel load _ hl hw hf]
        rw [cpu_pass_iterate load m (by omega)]
        have hmn : m < n := by omega
        simp [cpu_pass, hmn]
      · rcases fuel with _ | g
        · rfl
        · have hin := kernel_cpu_inner_none (g + 1) load ⟨0, 0, 0⟩ hl (by simp [toLong])
            (by omega)
          have hc : decide (0 < n) = true := by simp; omega
          simp [whileLoop, hin, hc]

theorem kernel_cpu_spec_inner (i L : Nat) :
    2 * ∑ j in Finset.range L, ((i : Int) + (j : Int)) = 2 * L * i + L * (L - 1) := by
  induction L with
  | zero => simp
  | succ k ih =>
    rw [Finset.sum_range_succ, mul_add, ih]; push_cast; ring

theorem kernel_cpu_spec_closed (n : Nat) (load : Int) :
    2 * kernel_cpu_spec n load =
      (load.toNat : Int) * n * (n - 1) + n * ((load.toNat : Int) * (load.toNat - 1)) := by
  unfold kernel_cpu_spec
  induction n with
  | zero => simp
  | succ k ih =>
    rw [Finset.sum_range_succ, mul_add, ih, kernel_cpu_spec_inner]; push_cast; ring

theorem toLong_lt (x : Int) : toLong x < 9223372036854775808 := by
  unfold toLong; omega

theorem kernel_cpu_overflow_value : kernel_cpu_spec 4294967295 2 = 18446744065119617025 := by
  have h := kernel_cpu_spec_closed 4294967295 2
  have h2 : (2 : Int).toNat = 2 := rfl
  rw [h2] at h
  norm_num at h
  omega

/-- C7, amended: for every `unsigned` count `n` and every positive `long` load,
with enough fuel `kernel_cpu` terminates with its inner body run exactly
`n * load` times and returns the sum over `i < n`, `j < load` of `i + j` reduced
to a `long` (two's-complement wrap-around), hence that very sum whenever it
fits a `long`; the result does not depend on the fuel, and for `n = 0` no inner
iteration is performed and `0` is returned. -/
theorem kernel_cpu_wrapped_sum (fuel n : Nat) (load : Int) (hn : n < 4294967296)
    (hpos : 0 < load) (hl : load < 9223372036854775808)
    (hfuel : n < fuel ∧ load.toNat < fuel) :
    kernel_cpu_run fuel n load
        = some ⟨n, toLong (kernel_cpu_spec n load), n * load.toNat⟩
      ∧ ((n * load.toNat : Nat) : Int) = n * load
      ∧ kernel_cpu fuel n load = some (toLong (kernel_cpu_spec n load))
      ∧ (kernel_cpu_spec n load < 9223372036854775808 →
          kernel_cpu fuel n load = some (kernel_cpu_spec n load))
      ∧ kernel_cpu_run fuel 0 load = some ⟨0, 0, 0⟩ := by
  have hrun : kernel_cpu_run fuel n load
      = some ⟨n, toLong (kernel_cpu_spec n load), n * load.toNat⟩ := by
    rw [kernel_cpu_run_eq fuel n load hn hl, if_pos ⟨hfuel.1, Or.inr hfuel.2⟩]
  have hnonneg : 0 ≤ kernel_cpu_spec n load := by
    unfold kernel_cpu_spec
    exact Finset.sum_nonneg (fun i _ => Finset.sum_nonneg (fun j _ => by positivity))
  refine ⟨hrun, ?_, ?_, ?_, ?_⟩
  · push_cast; rw [Int.toNat_of_nonneg hpos.le]
  · simp [kernel_cpu, hrun]
  · intro hfit
    simp only [kernel_cpu, hrun, Option.map_some']
    rw [toLong_of_range _ (by omega) hfit]
  · rw [kernel_cpu_run_eq fuel 0 load (by norm_num) hl, if_pos ⟨by omega, Or.inl rfl⟩]
    simp [kernel_cpu_spec, toLong]

/-- Witness of C7: three operations of load two, run with fuel ten, give
the sum `9` after six executions of the inner body. -/
theorem kernel_cpu_wrapped_sum_witness :
    kernel_cpu_run 10 3 2 = some ⟨3, 9, 6⟩ ∧ kernel_cpu 10 3 2 = some 9 := by
  have h := kernel_cpu_wrapped_sum 10 3 2 (by norm_num) (by norm_num) (by norm_num)
    ⟨by norm_num, by decide⟩
  have hs : toLong (kernel_cpu_spec 3 2) = 9 := by decide
  rw [hs] at h
  exact ⟨h.1, h.2.2.1⟩

/-- C7, counterexample: for `n = 4294967295` and `load = 2` the exact sum is
`18446744065119617025`, which no `long` holds; whatever the fuel, `kernel_cpu`
does not return it (with enough fuel it returns `-8589934591`). -/
theorem kernel_cpu_overflow_counterexample :
    (¬ ∃ fuel : Nat, kernel_cpu fuel 4294967295 2 = some (kernel_cpu_spec 4294967295 2))
      ∧ kernel_cpu 4294967296 4294967295 2 = some (-8589934591) := by
  constructor
  · rintro ⟨fuel, h⟩
    unfold kernel_cpu at h
    rw [kernel_cpu_run_eq fuel 4294967295 2 (by norm_num) (by norm_num)] at h
    by_cases hc : 4294967295 < fuel ∧ (4294967295 = 0 ∨ Int.toNat 2 < fuel)
    · rw [if_pos hc] at h
      simp only [Option.map_some', Option.some.injEq] at h
      have hlt := toLong_lt (kernel_cpu_spec 4294967295 2)
      rw [h, kernel_cpu_overflow_value] at hlt
      omega
    · rw [if_neg hc] at h
      simp at h
  · unfold kernel_cpu
    rw [kernel_cpu_run_eq 4294967296 4294967295 2 (by norm_num) (by norm_num),
      if_pos ⟨by norm_num, Or.inr (by decide)⟩, kernel_cpu_overflow_value]
    simp [toLong]

/-! ## The memory kernel -/

theorem set_getD_self (a : List Nat) : ∀ (off : Nat), off < a.length →
    a.set off (a.getD off 0) = a := by
  induction a with
  | nil => intro off h; simp at h
  | cons x xs ih =>
    intro off h
    cases off with
    | zero => simp
    | succ k =>
      have hk : k < xs.length := by simpa using h
      have := ih k hk
      simp only [List.getD_eq_getElem?_getD] at this
      simp [this]

theorem kernel_cache_body_iterate (off : Nat) (a : List Nat) (c : Nat) (hoff : off < a.length)
    (ha : a.getD off 0 < 4294967296) (m : Nat) (hm : m < 4294967296) :
    (kernel_cache_body off)^[m] ⟨0, a, c⟩ =
      ⟨m, a.set off ((a.getD off 0 + m) % 4294967296), c + m⟩ := by
  induction m with
  | zero =>
    have h1 : a.getD off 0 % 4294967296 = a.getD off 0 := Nat.mod_eq_of_lt ha
    simp only [Function.iterate_zero, id_eq, Nat.add_zero, Nat.zero_mul, h1,
      set_getD_self a off hoff]
  | succ m ih =>
    rw [Function.iterate_succ_apply', ih (by omega)]
    simp only [kernel_cache_body, CacheInner.mk.injEq, List.set_set]
    refine ⟨by omega, ?_, by omega⟩
    congr 1
    rw [List.getD_eq_getElem _ _ (by simpa using hoff)]
    simp only [List.getElem_set_self]
    omega

theorem kernel_cache_inner_eq (fuel off : Nat) (load : Int) (s : CacheOuter)
    (hl : load < 4294967296) (hoff : off < s.a.length) (ha : s.a.getD off 0 < 4294967296)
    (hfuel : load.toNat < fuel) :
    kernel_cache_inner fuel off load s =
      some ⟨load.toNat, s.a.set off ((s.a.getD off 0 + load.toNat) % 4294967296),
        s.incs + load.toNat⟩ := by
  unfold kernel_cache_inner
  have hL : load.toNat < 4294967296 := by omega
  rw [whileLoop_iterate _ _ (kernel_cache_body off) load.toNat _ fuel hfuel,
    kernel_cache_body_iterate off s.a s.incs hoff ha load.toNat hL]
  · intro m hm
    rw [kernel_cache_body_iterate off s.a s.incs hoff ha m (by omega)]
    simp only [decide_eq_true_eq, and_true]
    omega
  · rw [kernel_cache_body_iterate off s.a s.incs hoff ha load.toNat hL]
    simp only [decide_eq_false_iff_not, not_lt]
    omega

/-- With a bound that no `unsigned` reaches, the inner loop of `kernel_cache`
never exits: its counter wraps to `0` after `4294967295`. -/
theorem kernel_cache_inner_diverges (off : Nat) (load : Int) (hl : 4294967296 ≤ load) :
    ∀ (fuel : Nat) (t : CacheInner), t.j < 4294967296 →
      whileLoop (fun t => decide ((t.j : Int) < load))
        (fun t => some (kernel_cache_body off t)) fuel t = none := by
  intro fuel
  induction fuel with
  | zero => intro t _; rfl
  | succ fuel ih =>
    intro t ht
    have hc : decide ((t.j : Int) < load) = true := by
      simp only [decide_eq_true_eq]; omega
    have hnext : (kernel_cache_body off t).j < 4294967296 := by
      simp only [kernel_cache_body]; omega
    simp [whileLoop, hc, ih _ hnext]

theorem kernel_cache_run_diverges (fuel : Nat) (a : List Nat) (off n : Nat) (load : Int)
    (hn : 0 < n) (hl : 4294967296 ≤ load) : kernel_cache_run fuel a off n load = none := by
  unfold kernel_cache_run
  rcases fuel with _ | g
  · rfl
  · have hin : kernel_cache_inner (g + 1) off load ⟨0, a, 0⟩ = none :=
      kernel_cache_inner_diverges off load hl (g + 1) _ (by norm_num)
    have hc : decide (0 < n) = true := by simpa using hn
    simp [whileLoop, hin, hc]

theorem cache_pass_iterate (off : Nat) (load : Int) (a : List Nat) (hoff : off < a.length)
    (ha : a.getD off 0 < 4294967296) (m : Nat) (hm : m < 4294967296) :
    (cache_pass off load)^[m] ⟨0, a, 0⟩ =
      ⟨m, a.set off ((a.getD off 0 + m * load.toNat) % 4294967296), m * load.toNat⟩ := by
  induction m with
  | zero =>
    have h1 : a.getD off 0 % 4294967296 = a.getD off 0 := Nat.mod_eq_of_lt ha
    simp only [Function.iterate_zero, id_eq, Nat.add_zero, Nat.zero_mul, h1,
      set_getD_self a off hoff]
  | succ m ih =>
    rw [Function.iterate_succ_apply', ih (by omega)]
    simp only [cache_pass, CacheOuter.mk.injEq, List.set_set]
    refine ⟨by omega, ?_, by ring⟩
    congr 1
    rw [List.getD_eq_getElem _ _ (by simpa using hoff)]
    simp only [List.getElem_set_self]
    rw [Nat.add_mul, Nat.one_mul]
    omega

/-- With a load that fits `unsigned` and enough fuel, `kernel_cache_run` ends
with `n * load` increments performed, all of them on element `off`. -/
theorem kernel_cache_run_eq (fuel : Nat) (a : List Nat) (off n : Nat) (load : Int)
    (hn : n < 4294967296) (hl : load < 4294967296) (hoff : off < a.length)
    (ha : a.getD off 0 < 4294967296) (hfuel : n < fuel ∧ load.toNat < fuel) :
    kernel_cache_run fuel a off n load =
      some ⟨n, a.set off ((a.getD off 0 + n * load.toNat) % 4294967296), n * load.toNat⟩ := by
  unfold kernel_cache_run
  rw [whileLoop_iterate _ _ (cache_pass off load) n _ fuel hfuel.1,
    cache_pass_iterate off load a hoff ha n hn]
  · intro m hm
    rw [cache_pass_iterate off load a hoff ha m (by omega)]
    rw [kernel_cache_inner_eq fuel off load _ hl (by simpa using hoff) ?_ hfuel.2]
    · simp [cache_pass, hm]
    · simp only
      rw [List.getD_eq_getElem _ _ (by simpa using hoff)]
      simp only [List.getElem_set_self]
      omega
  · rw [cache_pass_iterate off load a hoff ha n hn]; simp

/-- C8, failing input: on the one-element array `[0]`, with `n = 1` and the
positive `long` load `4294967296`, `kernel_cache` has no result whatever the
fuel: the `unsigned` counter `j` stays below the bound for ever. -/
theorem kernel_cache_long_load_diverges :
    ∀ fuel : Nat, kernel_cache fuel [0] 0 1 4294967296 = none := by
  intro fuel
  unfold kernel_cache
  rw [kernel_cache_run_diverges fuel [0] 0 1 4294967296 (by norm_num) (by norm_num)]
  rfl

/-- For a load that fits `unsigned`, `kernel_cache` terminates (enough fuel
gives a result), performs `n * load` increments, adds `n * load` modulo `2^32`
to element `off` and leaves every other element as it was. -/
theorem kernel_cache_unsigned_load (fuel : Nat) (a : List Nat) (off n : Nat) (load : Int)
    (hn : n < 4294967296) (hpos : 0 < load) (hl : load < 4294967296) (hoff : off < a.length)
    (ha : a.getD off 0 < 4294967296) (hfuel : n < fuel ∧ load.toNat < fuel) :
    ∃ b : List Nat, kernel_cache fuel a off n load = some b
      ∧ (kernel_cache_run fuel a off n load).map CacheOuter.incs = some (n * load.toNat)
      ∧ ((n * load.toNat : Nat) : Int) = n * load
      ∧ b.length = a.length
      ∧ b.getD off 0 = (a.getD off 0 + n * load.toNat) % 4294967296
      ∧ ∀ k, k ≠ off → b.getD k 0 = a.getD k 0 := by
  have hrun := kernel_cache_run_eq fuel a off n load hn hl hoff ha hfuel
  refine ⟨a.set off ((a.getD off 0 + n * load.toNat) % 4294967296), ?_, ?_, ?_, ?_, ?_, ?_⟩
  · simp [kernel_cache, hrun]
  · simp [hrun]
  · push_cast; rw [Int.toNat_of_nonneg hpos.le]
  · simp
  · rw [List.getD_eq_getElem _ _ (by simpa using hoff)]
    simp only [List.getElem_set_self]
  · intro k hk
    simp only [List.getD_eq_getElem?_getD]
    rw [List.getElem?_set_ne (Ne.symm hk)]

/-! ## The statistics reporter -/

section Reporter

variable {α : Type} [LinearOrderedField α]

theorem fdiv_eq_none_iff (a b : α) : fdiv a b = none ↔ b = 0 := by
  unfold fdiv; split_ifs with h <;> simp [h]

theorem fdiv_of_ne (a b : α) (h : b ≠ 0) : fdiv a b = some (a / b) := by
  unfold fdiv; simp [h]

theorem scan_total (l : List α) : ∀ s : Scan α,
    (l.foldl dump_scan_body s).total = s.total + l.sum := by
  induction l with
  | nil => intro s; simp
  | cons x xs ih =>
    intro s
    simp only [List.foldl_cons, List.sum_cons]
    rw [ih]; simp only [dump_scan_body]; ring

theorem scan_min (l : List α) : ∀ s : Scan α,
    (l.foldl dump_scan_body s).min ≤ s.min
      ∧ (∀ x ∈ l, (l.foldl dump_scan_body s).min ≤ x)
      ∧ ((l.foldl dump_scan_body s).min = s.min ∨ (l.foldl dump_scan_body s).min ∈ l) := by
  induction l with
  | nil => intro s; simp
  | cons x xs ih =>
    intro s
    simp only [List.foldl_cons, List.mem_cons]
    obtain ⟨h1, h2, h3⟩ := ih (dump_scan_body s x)
    have hb : (dump_scan_body s x).min ≤ s.min ∧ (dump_scan_body s x).min ≤ x
        ∧ ((dump_scan_body s x).min = s.min ∨ (dump_scan_body s x).min = x) := by
      simp only [dump_scan_body]
      split_ifs with h
      · exact ⟨le_of_lt h, le_refl _, Or.inr rfl⟩
      · exact ⟨le_refl _, not_lt.mp h, Or.inl rfl⟩
    refine ⟨le_trans h1 hb.1, ?_, ?_⟩
    · intro y hy
      rcases hy with rfl | hy
      · exact le_trans h1 hb.2.1
      · exact h2 y hy
    · rcases h3 with h3 | h3
      · rcases hb.2.2 with h4 | h4
        · exact Or.inl (h3.trans h4)
        · exact Or.inr (Or.inl (h3.trans h4))
      · exact Or.inr (Or.inr h3)

theorem scan_max (l : List α) : ∀ s : Scan α,
    s.max ≤ (l.foldl dump_scan_body s).max
      ∧ (∀ x ∈ l, x ≤ (l.foldl dump_scan_body s).max)
      ∧ ((l.foldl dump_scan_body s).max = s.max ∨ (l.foldl dump_scan_body s).max ∈ l) := by
  induction l with
  | nil => intro s; simp
  | cons x xs ih =>
    intro s
    simp only [List.foldl_cons, List.mem_cons]
    obtain ⟨h1, h2, h3⟩ := ih (dump_scan_body s x)
    have hb : s.max ≤ (dump_scan_body s x).max ∧ x ≤ (dump_scan_body s x).max
        ∧ ((dump_scan_body s x).max = s.max ∨ (dump_scan_body s x).max = x) := by
      simp only [dump_scan_body]
      split_ifs with h
      · exact ⟨le_of_lt h, le_refl _, Or.inr rfl⟩
      · exact ⟨le_refl _, not_lt.mp h, Or.inl rfl⟩
    refine ⟨le_trans hb.1 h1, ?_, ?_⟩
    · intro y hy
      rcases hy with rfl | hy
      · exact le_trans hb.2.1 h1
      · exact h2 y hy
    · rcases h3 with h3 | h3
      · rcases hb.2.2 with h4 | h4
        · exact Or.inl (h3.trans h4)
        · exact Or.inr (Or.inl (h3.trans h4))
      · exact Or.inr (Or.inr h3)

theorem dump_squares_eq (l : List α) (m : α) :
    dump_squares l m = (l.map (fun x => (x - m) ^ 2)).sum := by
  unfold dump_squares
  have h : ∀ (acc : α), l.foldl (fun stddev x => stddev + (x - m) ^ 2) acc
      = acc + (l.map (fun x => (x - m) ^ 2)).sum := by
    induction l with
    | nil => intro acc; simp
    | cons x xs ih => intro acc; simp only [List.foldl_cons, List.map_cons, List.sum_cons]; rw [ih]; ring
  rw [h]; simp

theorem dump_total (l : List α) : (dump_scan l).total = l.sum := by
  unfold dump_scan; rw [scan_total]; simp

end Reporter

section ReporterClaims

variable {α : Type} [LinearOrderedField α]

theorem length_cast_ne_zero (l : List α) (h : l ≠ []) : ((l.length : α)) ≠ 0 := by
  have : l.length ≠ 0 := fun h0 => h (List.length_eq_zero.mp h0)
  exact_mod_cast this

theorem dump_mean (sqrt : α → α) (l : List α) (h : l ≠ []) :
    (benchmark_dump sqrt l).mean = some (mean_spec l) := by
  simp only [benchmark_dump, mean_spec, dump_total]
  exact fdiv_of_ne _ _ (length_cast_ne_zero l h)

theorem dump_stddev (sqrt : α → α) (l : List α) (h : l ≠ []) :
    (benchmark_dump sqrt l).stddev = some (stddev_spec sqrt l) := by
  have hm := dump_mean sqrt l h
  simp only [benchmark_dump] at hm ⊢
  rw [hm]
  simp only [Option.some_bind, dump_squares_eq, stddev_spec]
  rw [fdiv_of_ne _ _ (length_cast_ne_zero l h)]
  rfl

theorem dump_cov (sqrt : α → α) (l : List α) (h : l ≠ []) :
    (benchmark_dump sqrt l).cov = fdiv (stddev_spec sqrt l) (mean_spec l) := by
  have hm := dump_mean sqrt l h
  have hs := dump_stddev sqrt l h
  simp only [benchmark_dump] at hm hs ⊢
  rw [hs, hm]
  rfl

/-- The minimum and maximum of `benchmark_dump` are right as soon as one
metric is at most `UINT_MAX` and one is at least `0`. -/
theorem dump_min_max (sqrt : α → α) (l : List α)
    (hlo : ∃ x ∈ l, x ≤ (UINT_MAX : α)) (hhi : ∃ x ∈ l, 0 ≤ x) :
    IsMin l (benchmark_dump sqrt l).min ∧ IsMax l (benchmark_dump sqrt l).max := by
  simp only [benchmark_dump, dump_scan]
  obtain ⟨-, hmin2, hmin3⟩ := scan_min l ⟨(UINT_MAX : α), 0, 0⟩
  obtain ⟨-, hmax2, hmax3⟩ := scan_max l ⟨(UINT_MAX : α), 0, 0⟩
  refine ⟨⟨?_, hmin2⟩, ⟨?_, hmax2⟩⟩
  · rcases hmin3 with h | h
    · obtain ⟨x, hx, hxu⟩ := hlo
      have h1 := hmin2 x hx
      have h2 : (List.foldl dump_scan_body ⟨(UINT_MAX : α), 0, 0⟩ l).min = x :=
        le_antisymm h1 (by rw [h]; exact hxu)
      rw [h2]; exact hx
    · exact h
  · rcases hmax3 with h | h
    · obtain ⟨x, hx, hx0⟩ := hhi
      have h1 := hmax2 x hx
      have h2 : (List.foldl dump_scan_body ⟨(UINT_MAX : α), 0, 0⟩ l).max = x :=
        le_antisymm (by rw [h]; exact hx0) h1
      rw [h2]; exact hx
    · exact h

/-- For positive metrics of which one is at most `UINT_MAX`, the slowdown is
the largest metric divided by the smallest, and it is `1` when all are equal. -/
theorem dump_slowdown_small (sqrt : α → α) (l : List α) (hpos : ∀ x ∈ l, 0 < x)
    (hlo : ∃ x ∈ l, x ≤ (UINT_MAX : α)) :
    ∃ lo hi : α, IsMin l lo ∧ IsMax l hi ∧ (benchmark_dump sqrt l).slowdown = some (hi / lo)
      ∧ ((∀ x ∈ l, ∀ y ∈ l, x = y) → (benchmark_dump sqrt l).slowdown = some 1) := by
  obtain ⟨x0, hx0, hx0u⟩ := hlo
  obtain ⟨hmin, hmax⟩ := dump_min_max sqrt l ⟨x0, hx0, hx0u⟩ ⟨x0, hx0, (hpos x0 hx0).le⟩
  have hne : (benchmark_dump sqrt l).min ≠ 0 := (hpos _ hmin.1).ne'
  have hsl : (benchmark_dump sqrt l).slowdown
      = some ((benchmark_dump sqrt l).max / (benchmark_dump sqrt l).min) :=
    fdiv_of_ne _ _ hne
  refine ⟨_, _, hmin, hmax, hsl, ?_⟩
  intro hall
  rw [hsl, hall _ hmax.1 _ hmin.1, div_self hne]

end ReporterClaims

/-- C3: for every metric array of `K ≥ 1` reals with non-zero mean,
`benchmark_dump` computes the mean `sum / K`, the population standard deviation
`sqrt(sum((x - mean)^2) / K)` with divisor `K`, and emits their quotient as cov. -/
theorem benchmark_dump_cov_population (metric : List ℝ) (hK : 1 ≤ metric.length)
    (hmean : mean_spec metric ≠ 0) :
    (benchmark_dump Real.sqrt metric).mean = some (metric.sum / (metric.length : ℝ))
      ∧ (benchmark_dump Real.sqrt metric).stddev = some (Real.sqrt
          ((metric.map (fun x => (x - metric.sum / (metric.length : ℝ)) ^ 2)).sum
            / (metric.length : ℝ)))
      ∧ (benchmark_dump Real.sqrt metric).cov
          = some (stddev_spec Real.sqrt metric / mean_spec metric) := by
  have hne : metric ≠ [] := by
    intro h; rw [h] at hK; simp at hK
  refine ⟨dump_mean Real.sqrt metric hne, dump_stddev Real.sqrt metric hne, ?_⟩
  rw [dump_cov Real.sqrt metric hne, fdiv_of_ne _ _ hmean]

theorem sqrt_example : Real.sqrt (4900.5 / 2) = 49.5 := by
  have h : (4900.5 / 2 : ℝ) = 49.5 ^ 2 := by norm_num
  rw [h, Real.sqrt_sq (by norm_num)]

/-- Witness of C3, the array `[1, 100]` of the specification: mean `50.5`,
standard deviation `49.5`, cov `49.5 / 50.5`. -/
theorem benchmark_dump_cov_population_witness :
    (benchmark_dump Real.sqrt ([1, 100] : List ℝ)).mean = some 50.5
      ∧ (benchmark_dump Real.sqrt ([1, 100] : List ℝ)).stddev = some 49.5
      ∧ (benchmark_dump Real.sqrt ([1, 100] : List ℝ)).cov = some (49.5 / 50.5) := by
  have hm : mean_spec ([1, 100] : List ℝ) = 50.5 := by
    simp only [mean_spec, List.sum_cons, List.sum_nil, List.length_cons, List.length_nil]
    norm_num
  have hs : stddev_spec Real.sqrt ([1, 100] : List ℝ) = 49.5 := by
    simp only [stddev_spec, hm, List.map_cons, List.map_nil, List.sum_cons, List.sum_nil,
      List.length_cons, List.length_nil]
    rw [← sqrt_example]; norm_num
  have h := benchmark_dump_cov_population [1, 100] (by simp) (by rw [hm]; norm_num)
  rw [hs, hm] at h
  refine ⟨?_, ?_, h.2.2⟩
  · rw [h.1]; simp only [List.sum_cons, List.sum_nil, List.length_cons, List.length_nil]
    norm_num
  · rw [h.2.1]
    simp only [List.map_cons, List.map_nil, List.sum_cons, List.sum_nil,
      List.length_cons, List.length_nil]
    rw [← sqrt_example]; norm_num

/-- C4, counterexample: for the all-zero array `[0, 0]` the mean is `0` and the
division `stddev / mean` is carried out with that zero divisor; no sentinel
takes the place of its result. -/
theorem benchmark_dump_cov_zero_mean :
    (benchmark_dump Real.sqrt ([0, 0] : List ℝ)).mean = some 0
      ∧ (benchmark_dump Real.sqrt ([0, 0] : List ℝ)).stddev = some 0
      ∧ (benchmark_dump Real.sqrt ([0, 0] : List ℝ)).cov = fdiv 0 0
      ∧ (benchmark_dump Real.sqrt ([0, 0] : List ℝ)).cov = none := by
  have hm : mean_spec ([0, 0] : List ℝ) = 0 := by simp [mean_spec]
  have hs : stddev_spec Real.sqrt ([0, 0] : List ℝ) = 0 := by simp [stddev_spec, hm]
  have hc := dump_cov Real.sqrt ([0, 0] : List ℝ) (by simp)
  rw [hm, hs] at hc
  refine ⟨?_, ?_, hc, ?_⟩
  · rw [dump_mean Real.sqrt _ (by simp), hm]
  · rw [dump_stddev Real.sqrt _ (by simp), hs]
  · rw [hc]; simp [fdiv]

/-- C4, amended: `benchmark_dump` divides `stddev` by `mean` without a test;
for every array of `K ≥ 1` metrics the cov is that guarded quotient, so the
zero-divisor branch is taken exactly when the metrics sum to zero (mean `0`),
in particular when all of them are zero, and is not taken otherwise. -/
theorem benchmark_dump_cov_unguarded {α : Type} [LinearOrderedField α] (sqrt : α → α)
    (metric : List α) (hK : 1 ≤ metric.length) :
    (benchmark_dump sqrt metric).cov = fdiv (stddev_spec sqrt metric) (mean_spec metric)
      ∧ ((benchmark_dump sqrt metric).cov = none ↔ metric.sum = 0)
      ∧ ((∀ x ∈ metric, x = 0) → (benchmark_dump sqrt metric).cov = none)
      ∧ (metric.sum ≠ 0 → (benchmark_dump sqrt metric).cov
          = some (stddev_spec sqrt metric / mean_spec metric)) := by
  have hne : metric ≠ [] := by
    intro h; rw [h] at hK; simp at hK
  have hc := dump_cov sqrt metric hne
  have hlen := length_cast_ne_zero metric hne
  have hiff : (benchmark_dump sqrt metric).cov = none ↔ metric.sum = 0 := by
    rw [hc, fdiv_eq_none_iff, mean_spec, div_eq_zero_iff]
    exact ⟨fun h => h.resolve_right hlen, fun h => Or.inl h⟩
  refine ⟨hc, hiff, ?_, ?_⟩
  · intro hall
    apply hiff.mpr
    exact List.sum_eq_zero hall
  · intro hsum
    rw [hc]
    apply fdiv_of_ne
    rw [mean_spec]
    exact div_ne_zero hsum hlen

/-- Witness of C4: the all-zero array `[0, 0, 0]`, where the division is by zero. -/
theorem benchmark_dump_cov_unguarded_witness :
    (benchmark_dump Real.sqrt ([0, 0, 0] : List ℝ)).cov = none :=
  (benchmark_dump_cov_unguarded Real.sqrt [0, 0, 0] (by simp)).2.2.1 (by simp)

/-! ## The parallel executor -/

theorem toUnsigned_lt (x : Int) : toUnsigned x < 4294967296 := by
  unfold toUnsigned; omega

theorem toInt32_of_small (x : Nat) (h : x < 2147483648) : toInt32 (x : Int) = x := by
  unfold toInt32; omega

theorem roundDouble_of_small (x : Int) (h : x.natAbs < 9007199254740992) :
    roundDouble x = x := by
  unfold roundDouble; simp [h]

theorem roundDouble_nonneg (x : Int) (h : 0 ≤ x) : 0 ≤ roundDouble x := by
  unfold roundDouble
  simp only
  split_ifs
  all_goals first
    | exact h
    | exact mul_nonneg (Int.sign_nonneg.mpr h) (Int.ofNat_nonneg _)

theorem foldlM_some {β γ : Type} (f : β → γ → Option β) (g : β → γ → β)
    (h : ∀ b c, f b c = some (g b c)) : ∀ (l : List γ) (b : β),
    l.foldlM f b = some (l.foldl g b) := by
  intro l
  induction l with
  | nil => intro b; rfl
  | cons c cs ih => intro b; simp [List.foldlM_cons, h, ih]

theorem forThreads_some {β : Type} (f : Nat → Option β) (g : Nat → β)
    (h : ∀ tid, f tid = some (g tid)) : ∀ l : List Nat, forThreads f l = some (l.map g) := by
  intro l
  induction l with
  | nil => rfl
  | cons t ts ih => simp [forThreads, h, ih]

section Executor

variable {α : Type} [LinearOrderedField α]

theorem kernel_cpu_eq (fuel n : Nat) (load : Int) (hn : n < 4294967296)
    (hl : load < 9223372036854775808) (hfuel : 4294967296 ≤ fuel ∧ load.toNat < fuel) :
    kernel_cpu fuel n load = some (toLong (kernel_cpu_spec n load)) := by
  unfold kernel_cpu
  rw [kernel_cpu_run_eq fuel n load hn hl, if_pos ⟨by omega, Or.inr hfuel.2⟩]
  rfl

theorem cpu_task_eq (fuel : Nat) (tasks : List Nat) (load : Int) (rt : Runtime α)
    (hl : load < 9223372036854775808) (hfuel : 4294967296 ≤ fuel ∧ load.toNat < fuel)
    (w : Worker α) (i : Nat) :
    cpu_task fuel tasks load rt w i = some (cpu_step tasks load rt w i) := by
  rw [cpu_task, kernel_cpu_eq fuel _ load (toUnsigned_lt _) hl hfuel]
  rfl

theorem cpu_worker_eq (fuel : Nat) (tasks : List Nat) (load : Int) (rt : Runtime α)
    (hl : load < 9223372036854775808) (hfuel : 4294967296 ≤ fuel ∧ load.toNat < fuel)
    (tid : Nat) :
    cpu_worker fuel tasks load rt tid
      = some ((rt.sched tid).foldl (cpu_step tasks load rt) ⟨0, 0, 0⟩) :=
  foldlM_some _ _ (cpu_task_eq fuel tasks load rt hl hfuel) _ _

/-- With enough fuel the parallel region of `benchmark_cpu` finishes, and slot
`tid` holds the totals of the iterations dispatched to thread `tid`. -/
theorem cpu_region_eq (fuel : Nat) (tasks : List Nat) (nthreads load : Int) (rt : Runtime α)
    (hl : load < 9223372036854775808) (hfuel : 4294967296 ≤ fuel ∧ load.toNat < fuel) :
    cpu_region fuel tasks nthreads load rt
      = some ((List.range nthreads.toNat).map
          (fun tid => (rt.sched tid).foldl (cpu_step tasks load rt) ⟨0, 0, 0⟩)) :=
  forThreads_some _ _ (cpu_worker_eq fuel tasks load rt hl hfuel) _

theorem cpu_fold_load (tasks : List Nat) (load : Int) (rt : Runtime α) :
    ∀ (idxs : List Nat) (w : Worker α),
      (idxs.foldl (cpu_step tasks load rt) w).private_load
        = idxs.foldl (fun acc i => fadd acc (toInt32 (tasks.getD i 0))) w.private_load := by
  intro idxs
  induction idxs with
  | nil => intro w; rfl
  | cons i is ih => intro w; simp only [List.foldl_cons]; rw [ih]; rfl

theorem cpu_fold_time (tasks : List Nat) (load : Int) (rt : Runtime α) :
    ∀ (idxs : List Nat) (w : Worker α),
      (idxs.foldl (cpu_step tasks load rt) w).private_time
        = w.private_time + (idxs.map rt.elapsed).sum := by
  intro idxs
  induction idxs with
  | nil => intro w; simp
  | cons i is ih =>
    intro w; simp only [List.foldl_cons, List.map_cons, List.sum_cons]; rw [ih]
    simp only [cpu_step]; ring

/-- Accumulating costs below `2^31` whose sum stays below `2^53` is exact. -/
theorem fold_load_exact (tasks : List Nat) (hsmall : ∀ c ∈ tasks, c < 2147483648) :
    ∀ (idxs : List Nat) (acc : Int), 0 ≤ acc →
      acc + ((idxs.map (fun i => tasks.getD i 0)).sum : Nat) < 9007199254740992 →
      idxs.foldl (fun acc i => fadd acc (toInt32 (tasks.getD i 0))) acc
        = acc + ((idxs.map (fun i => tasks.getD i 0)).sum : Nat) := by
  intro idxs
  induction idxs with
  | nil => intro acc _ _; simp
  | cons i is ih =>
    intro acc h0 hlt
    simp only [List.foldl_cons, List.map_cons, List.sum_cons] at hlt ⊢
    have hc : tasks.getD i 0 < 2147483648 := by
      by_cases hi : i < tasks.length
      · rw [List.getD_eq_getElem _ _ hi]; exact hsmall _ (List.getElem_mem hi)
      · rw [List.getD_eq_default _ _ (by omega)]; norm_num
    rw [toInt32_of_small _ hc]
    generalize (List.map (fun i => tasks.getD i 0) is).sum = S at hlt ih ⊢
    rw [Nat.cast_add] at hlt ⊢
    have hstep : fadd acc (tasks.getD i 0 : Int) = acc + (tasks.getD i 0 : Int) := by
      unfold fadd
      apply roundDouble_of_small
      omega
    rw [hstep, ih _ (by omega) (by omega)]
    ring

theorem fold_load_nonneg (tasks : List Nat) (hsmall : ∀ c ∈ tasks, c < 2147483648) :
    ∀ (idxs : List Nat) (acc : Int), 0 ≤ acc →
      0 ≤ idxs.foldl (fun acc i => fadd acc (toInt32 (tasks.getD i 0))) acc := by
  intro idxs
  induction idxs with
  | nil => intro acc h; exact h
  | cons i is ih =>
    intro acc h0
    simp only [List.foldl_cons]
    apply ih
    have hc : tasks.getD i 0 < 2147483648 := by
      by_cases hi : i < tasks.length
      · rw [List.getD_eq_getElem _ _ hi]; exact hsmall _ (List.getElem_mem hi)
      · rw [List.getD_eq_default _ _ (by omega)]; norm_num
    rw [toInt32_of_small _ hc]
    exact roundDouble_nonneg _ (by omega)

end Executor

section ExecutorResults

variable {α : Type} [LinearOrderedField α]

/-- The `loads` array after the parallel region of `benchmark_cpu`. -/
theorem cpu_loads_eq (fuel : Nat) (tasks : List Nat) (nthreads load : Int) (rt : Runtime α)
    (hl : load < 9223372036854775808) (hfuel : 4294967296 ≤ fuel ∧ load.toNat < fuel) :
    (cpu_region fuel tasks nthreads load rt).map loadsOf
      = some ((List.range nthreads.toNat).map (fun tid =>
          (rt.sched tid).foldl (fun acc i => fadd acc (toInt32 (tasks.getD i 0))) 0)) := by
  rw [cpu_region_eq fuel tasks nthreads load rt hl hfuel]
  simp only [Option.map_some', loadsOf, List.map_map, Option.some.injEq]
  apply List.map_congr_left
  intro tid _
  exact cpu_fold_load tasks load rt (rt.sched tid) ⟨0, 0, 0⟩

/-- The `times` array after the parallel region of `benchmark_cpu`. -/
theorem cpu_times_eq (fuel : Nat) (tasks : List Nat) (nthreads load : Int) (rt : Runtime α)
    (hl : load < 9223372036854775808) (hfuel : 4294967296 ≤ fuel ∧ load.toNat < fuel) :
    (cpu_region fuel tasks nthreads load rt).map timesOf
      = some ((List.range nthreads.toNat).map (fun tid => ((rt.sched tid).map rt.elapsed).sum)) := by
  rw [cpu_region_eq fuel tasks nthreads load rt hl hfuel]
  simp only [Option.map_some', timesOf, List.map_map, Option.some.injEq]
  apply List.map_congr_left
  intro tid _
  simp only [Function.comp_apply]
  rw [cpu_fold_time tasks load rt (rt.sched tid) ⟨0, 0, 0⟩]
  simp

end ExecutorResults

theorem range_one_eq : List.range 1 = [0] := rfl

theorem range_two_eq : List.range 2 = [0, 1] := rfl

theorem kernel_cache_big_task :
    kernel_cache 4294967296 [2147483648] 0 2147483648 1 = some [0] := by
  unfold kernel_cache
  rw [kernel_cache_run_eq 4294967296 [2147483648] 0 2147483648 1 (by norm_num) (by norm_num)
    (by simp) (by simp) ⟨by norm_num, by decide⟩]
  decide

/-- C1, failing input: one task of cost `2147483648`, one thread. The cost is
read into `int work`, so the load recorded is `-2147483648`, in `benchmark_cpu`
and in `benchmark_cache` alike, while the costs sum to `2147483648`. -/
theorem conservation_fails_at_int_work :
    Dispatches (serial ℝ 1) 1 1
      ∧ (cpu_region 4294967296 [2147483648] 1 1 (serial ℝ 1)).map
          (fun ws => (loadsOf ws).sum) = some (-2147483648)
      ∧ (cache_region 4294967296 [2147483648] 1 1 1 (serial ℝ 1)).map
          (fun ws => (loadsOf ws).sum) = some (-2147483648)
      ∧ (([2147483648] : List Nat).sum : Int) = 2147483648 := by
  refine ⟨?_, ?_, ?_, by norm_num⟩
  · simp [Dispatches, serial, range_one_eq]
  · have h := cpu_loads_eq 4294967296 [2147483648] 1 1 (serial ℝ 1) (by norm_num)
      ⟨by norm_num, by decide⟩
    have hv : fadd 0 (toInt32 2147483648) = -2147483648 := by decide
    have h1 : (cpu_region 4294967296 [2147483648] 1 1 (serial ℝ 1)).map
        (fun ws => (loadsOf ws).sum)
        = ((cpu_region 4294967296 [2147483648] 1 1 (serial ℝ 1)).map loadsOf).map List.sum := by
      cases cpu_region 4294967296 [2147483648] 1 1 (serial ℝ 1) <;> rfl
    rw [h1, h]
    simp [serial, range_one_eq, hv]
  · have hw : toInt32 2147483648 = -2147483648 := by decide
    have hu : toUnsigned (-2147483648) = 2147483648 := by decide
    have hv : fadd 0 (-2147483648) = -2147483648 := by decide
    simp [cache_region, cache_threads, cache_worker, cache_task, serial, range_one_eq, loadsOf,
      hw, hu, hv, kernel_cache_big_task]

/-! ## Conservation of work for costs that fit `int` -/

theorem costs_of_range (tasks : List Nat) :
    (List.range tasks.length).map (fun i => tasks.getD i 0) = tasks := by
  apply List.ext_getElem
  · simp
  · intro n h1 h2
    simp only [List.getElem_map, List.getElem_range]
    exact List.getD_eq_getElem _ _ h2

theorem sum_map_flatten (f : Nat → Nat) (W : List (List Nat)) :
    (W.map (fun idxs => (idxs.map f).sum)).sum = (W.flatten.map f).sum := by
  induction W with
  | nil => rfl
  | cons w ws ih => simp [ih]

theorem cast_sum_map (f : Nat → Nat) (l : List Nat) :
    (l.map (fun t => ((f t : Nat) : Int))).sum = (((l.map f).sum : Nat) : Int) := by
  induction l with
  | nil => rfl
  | cons t ts ih => simp only [List.map_cons, List.sum_cons, ih]; push_cast; rfl

theorem le_sum_of_mem_nat (l : List Nat) (x : Nat) (h : x ∈ l) : x ≤ l.sum := by
  induction l with
  | nil => simp at h
  | cons y ys ih =>
    simp only [List.mem_cons] at h
    simp only [List.sum_cons]
    rcases h with rfl | h
    · omega
    · have := ih h; omega

theorem length_le_sum_of_pos (l : List Nat) (h : ∀ x ∈ l, 1 ≤ x) : l.length ≤ l.sum := by
  induction l with
  | nil => simp
  | cons y ys ih =>
    simp only [List.length_cons, List.sum_cons]
    have h1 := h y (List.mem_cons_self _ _)
    have h2 := ih (fun x hx => h x (List.mem_cons_of_mem _ hx))
    omega

theorem dispatched_cost {α : Type} (tasks : List Nat) (nthreads : Int) (rt : Runtime α)
    (hd : Dispatches rt nthreads tasks.length) :
    (((List.range nthreads.toNat).map rt.sched).map
      (fun idxs => (idxs.map (fun i => tasks.getD i 0)).sum)).sum = tasks.sum := by
  rw [sum_map_flatten, (hd.map _).sum_eq, costs_of_range]

/-- Where there are more threads than tasks, the runtime leaves a thread idle. -/
theorem idle_thread_exists {α : Type} (ntasks : Nat) (nthreads : Int) (rt : Runtime α)
    (hd : Dispatches rt nthreads ntasks) (hT : (ntasks : Int) < nthreads) :
    ∃ tid, tid < nthreads.toNat ∧ rt.sched tid = [] := by
  by_contra hno
  push_neg at hno
  have hlen := hd.length_eq
  rw [List.length_flatten, List.length_range] at hlen
  have hpos : ∀ x ∈ (((List.range nthreads.toNat).map rt.sched).map List.length), 1 ≤ x := by
    intro x hx
    simp only [List.mem_map, List.mem_range, exists_exists_and_eq_and] at hx
    obtain ⟨tid, htid, rfl⟩ := hx
    exact List.length_pos.mpr (hno tid htid)
  have h := length_le_sum_of_pos _ hpos
  simp only [List.length_map, List.length_range] at h
  omega

/-- The per-thread sums of costs below `2^31`, accumulated in doubles, add up
to the sum of all costs when that sum is below `2^53`. -/
theorem loads_sum_exact {α : Type} (tasks : List Nat) (nthreads : Int) (rt : Runtime α)
    (hsmall : ∀ c ∈ tasks, c < 2147483648) (hsum : tasks.sum < 9007199254740992)
    (hd : Dispatches rt nthreads tasks.length) :
    ((List.range nthreads.toNat).map (fun tid =>
        (rt.sched tid).foldl (fun acc i => fadd acc (toInt32 (tasks.getD i 0))) 0)).sum
      = (tasks.sum : Int) := by
  have htot := dispatched_cost tasks nthreads rt hd
  have hexact : ∀ tid ∈ List.range nthreads.toNat,
      (rt.sched tid).foldl (fun acc i => fadd acc (toInt32 (tasks.getD i 0))) 0
        = (((rt.sched tid).map (fun i => tasks.getD i 0)).sum : Nat) := by
    intro tid htid
    have hle : ((rt.sched tid).map (fun i => tasks.getD i 0)).sum ≤ tasks.sum := by
      rw [← htot]
      apply le_sum_of_mem_nat
      simp only [List.map_map, List.mem_map, Function.comp_apply]
      exact ⟨tid, htid, rfl⟩
    rw [fold_load_exact tasks hsmall (rt.sched tid) 0 (le_refl _) (by omega)]
    simp
  rw [List.map_congr_left hexact, ← htot, List.map_map]
  exact cast_sum_map _ _

section Conservation

variable {α : Type} [LinearOrderedField α]

/-- Conservation of work in `benchmark_cpu` for costs below `2^31` whose sum
is below `2^53`: the recorded loads add up to the sum of the task costs. -/
theorem cpu_conservation_small (fuel : Nat) (tasks : List Nat) (nthreads load : Int)
    (rt : Runtime α) (hl : load < 9223372036854775808)
    (hfuel : 4294967296 ≤ fuel ∧ load.toNat < fuel)
    (hsmall : ∀ c ∈ tasks, c < 2147483648) (hsum : tasks.sum < 9007199254740992)
    (hd : Dispatches rt nthreads tasks.length) :
    (cpu_region fuel tasks nthreads load rt).map (fun ws => (loadsOf ws).sum)
      = some (tasks.sum : Int) := by
  have h := cpu_loads_eq fuel tasks nthreads load rt hl hfuel
  have h1 : (cpu_region fuel tasks nthreads load rt).map (fun ws => (loadsOf ws).sum)
      = ((cpu_region fuel tasks nthreads load rt).map loadsOf).map List.sum := by
    cases cpu_region fuel tasks nthreads load rt <;> rfl
  rw [h1, h]
  simp only [Option.map_some', Option.some.injEq]
  exact loads_sum_exact tasks nthreads rt hsmall hsum hd

/-- A thread that is dispatched no index stores `load = 0` and `time = 0`. -/
theorem cpu_idle_worker (fuel : Nat) (tasks : List Nat) (load : Int) (rt : Runtime α)
    (tid : Nat) (h : rt.sched tid = []) :
    cpu_worker fuel tasks load rt tid = some ⟨0, 0, 0⟩ := by
  unfold cpu_worker; rw [h]; rfl

/-- For costs below `2^31` every recorded load is non-negative. -/
theorem cpu_loads_nonneg_small (fuel : Nat) (tasks : List Nat) (nthreads load : Int)
    (rt : Runtime α) (hl : load < 9223372036854775808)
    (hfuel : 4294967296 ≤ fuel ∧ load.toNat < fuel)
    (hsmall : ∀ c ∈ tasks, c < 2147483648) :
    ∃ ws, cpu_region fuel tasks nthreads load rt = some ws ∧ ∀ x ∈ loadsOf ws, 0 ≤ x := by
  have h := cpu_loads_eq fuel tasks nthreads load rt hl hfuel
  rw [cpu_region_eq fuel tasks nthreads load rt hl hfuel] at h ⊢
  refine ⟨_, rfl, ?_⟩
  simp only [Option.map_some', Option.some.injEq] at h
  rw [h]
  intro x hx
  simp only [List.mem_map] at hx
  obtain ⟨tid, -, rfl⟩ := hx
  exact fold_load_nonneg tasks hsmall _ 0 (le_refl _)

/-- For costs below `2^31` and more threads than tasks, the `loads` array holds
a `0`, the minimum `benchmark_dump` computes over it is `0`, and the slowdown
is a division by that zero. -/
theorem cpu_slowdown_zero_divisor_small (sqrt : α → α) (fuel : Nat) (tasks : List Nat)
    (nthreads load : Int) (rt : Runtime α) (hl : load < 9223372036854775808)
    (hfuel : 4294967296 ≤ fuel ∧ load.toNat < fuel)
    (hsmall : ∀ c ∈ tasks, c < 2147483648)
    (hd : Dispatches rt nthreads tasks.length) (hT : (tasks.length : Int) < nthreads) :
    ∃ ws, cpu_region fuel tasks nthreads load rt = some ws
      ∧ (0 : Int) ∈ loadsOf ws
      ∧ (benchmark_dump sqrt ((loadsOf ws).map (fun x : Int => (x : α)))).min = 0
      ∧ (benchmark_dump sqrt ((loadsOf ws).map (fun x : Int => (x : α)))).slowdown = none := by
  obtain ⟨ws, hws, hnonneg⟩ := cpu_loads_nonneg_small fuel tasks nthreads load rt hl hfuel hsmall
  obtain ⟨tid, htid, hidle⟩ := idle_thread_exists tasks.length nthreads rt hd hT
  have h := cpu_loads_eq fuel tasks nthreads load rt hl hfuel
  rw [hws] at h
  simp only [Option.map_some', Option.some.injEq] at h
  have hzero : (0 : Int) ∈ loadsOf ws := by
    rw [h, List.mem_map]
    exact ⟨tid, List.mem_range.mpr htid, by rw [hidle]; rfl⟩
  have hmin : (benchmark_dump sqrt ((loadsOf ws).map (fun x : Int => (x : α)))).min = 0 := by
    simp only [benchmark_dump, dump_scan]
    obtain ⟨-, h2, h3⟩ := scan_min ((loadsOf ws).map (fun x : Int => (x : α))) ⟨(UINT_MAX : α), 0, 0⟩
    have hle := h2 0 (by rw [List.mem_map]; exact ⟨0, hzero, by simp⟩)
    apply le_antisymm hle
    rcases h3 with h3 | h3
    · rw [h3]; simp [UINT_MAX]
    · rw [List.mem_map] at h3
      obtain ⟨x, hx, hxe⟩ := h3
      rw [← hxe]
      exact_mod_cast hnonneg x hx
  refine ⟨ws, hws, hzero, hmin, ?_⟩
  have hs : (benchmark_dump sqrt ((loadsOf ws).map (fun x : Int => (x : α)))).slowdown
      = fdiv (benchmark_dump sqrt ((loadsOf ws).map (fun x : Int => (x : α)))).max
          (benchmark_dump sqrt ((loadsOf ws).map (fun x : Int => (x : α)))).min := rfl
  rw [hs, hmin]
  simp [fdiv]

end Conservation

/-! ## The memory-bound executor -/

theorem toUnsigned_toInt32 (x : Nat) (h : x < 4294967296) :
    toUnsigned (toInt32 (x : Int)) = x := by
  unfold toUnsigned toInt32; omega

theorem kernel_cache_eq (fuel : Nat) (a : List Nat) (off n : Nat) (load : Int)
    (hn : n < 4294967296) (hl : load < 4294967296) (hoff : off < a.length)
    (ha : a.getD off 0 < 4294967296) (hfuel : 4294967296 ≤ fuel) :
    kernel_cache fuel a off n load
      = some (a.set off ((a.getD off 0 + n * load.toNat) % 4294967296)) := by
  unfold kernel_cache
  rw [kernel_cache_run_eq fuel a off n load hn hl hoff ha ⟨by omega, by omega⟩]
  rfl

section CacheExecutor

variable {α : Type} [LinearOrderedField α]

/-- One thread of `benchmark_cache`, on an array that still holds the costs of
the indices to come: it reads exactly those costs, and leaves the entries of
the indices `rest` not yet dispatched as they were. -/
theorem cache_worker_fold (fuel : Nat) (tasks : List Nat) (load : Int) (rt : Runtime α)
    (hl : load < 4294967296) (hfuel : 4294967296 ≤ fuel) (rest : List Nat) :
    ∀ (idxs : List Nat) (array : List Nat) (w : Worker α),
      (idxs ++ rest).Nodup →
      (∀ k ∈ idxs ++ rest, k < array.length ∧ array.getD k 0 = tasks.getD k 0) →
      (∀ k, array.getD k 0 < 4294967296) →
      ∃ array2 w2, idxs.foldlM (cache_task fuel load rt) (array, w) = some (array2, w2)
        ∧ w2.private_load
            = idxs.foldl (fun acc i => fadd acc (toInt32 (tasks.getD i 0))) w.private_load
        ∧ w2.private_time = w.private_time + (idxs.map rt.elapsed).sum
        ∧ array2.length = array.length
        ∧ (∀ k ∈ rest, array2.getD k 0 = tasks.getD k 0)
        ∧ (∀ k, array2.getD k 0 < 4294967296) := by
  intro idxs
  induction idxs with
  | nil =>
    intro array w _ hcost hb
    exact ⟨array, w, rfl, rfl, by simp, rfl, fun k hk => (hcost k (by simpa using hk)).2, hb⟩
  | cons i is ih =>
    intro array w hnd hcost hb
    have hi := hcost i (by simp)
    have hnd2 : (is ++ rest).Nodup := (List.nodup_cons.mp hnd).2
    have hinot : i ∉ is ++ rest := (List.nodup_cons.mp hnd).1
    have hk := kernel_cache_eq fuel array i (toUnsigned (toInt32 (array.getD i 0))) load
      (toUnsigned_lt _) hl hi.1 (hb i) hfuel
    have htask : cache_task fuel load rt (array, w) i
        = some (array.set i ((array.getD i 0
              + toUnsigned (toInt32 (array.getD i 0)) * load.toNat) % 4294967296),
            ⟨fadd w.private_load (toInt32 (tasks.getD i 0)), w.private_time + rt.elapsed i,
              w.sum⟩) := by
      rw [cache_task]
      simp only
      rw [hk, hi.2]
      rfl
    obtain ⟨array2, w2, hfold, hload, htime, hlen, hrest, hb2⟩ :=
      ih (array.set i ((array.getD i 0
              + toUnsigned (toInt32 (array.getD i 0)) * load.toNat) % 4294967296))
        ⟨fadd w.private_load (toInt32 (tasks.getD i 0)), w.private_time + rt.elapsed i, w.sum⟩
        hnd2
        (by
          intro k hkmem
          have hne : i ≠ k := fun h => hinot (h ▸ hkmem)
          have hc := hcost k (List.mem_cons_of_mem _ hkmem)
          refine ⟨by simpa using hc.1, ?_⟩
          simp only [List.getD_eq_getElem?_getD] at hc ⊢
          rw [List.getElem?_set_ne hne]; exact hc.2)
        (by
          intro k
          by_cases hki : i = k
          · subst hki
            rw [List.getD_eq_getElem _ _ (by simpa using hi.1)]
            simp only [List.getElem_set_self]
            omega
          · have := hb k
            simp only [List.getD_eq_getElem?_getD] at this ⊢
            rw [List.getElem?_set_ne hki]; exact this)
    refine ⟨array2, w2, ?_, ?_, ?_, ?_, hrest, hb2⟩
    · rw [List.foldlM_cons, htask]; exact hfold
    · rw [hload]; rfl
    · rw [htime]; simp only [List.map_cons, List.sum_cons]; ring
    · rw [hlen]; simp

/-- The threads of `benchmark_cache` one after the other: each index is
dispatched once, so each thread reads the original costs. -/
theorem cache_threads_loads (fuel : Nat) (tasks : List Nat) (load : Int) (rt : Runtime α)
    (hl : load < 4294967296) (hfuel : 4294967296 ≤ fuel) :
    ∀ (tids : List Nat) (array : List Nat),
      ((tids.map rt.sched).flatten).Nodup →
      (∀ k ∈ (tids.map rt.sched).flatten, k < array.length ∧ array.getD k 0 = tasks.getD k 0) →
      (∀ k, array.getD k 0 < 4294967296) →
      ∃ array2 ws, cache_threads fuel load rt array tids = some (array2, ws)
        ∧ loadsOf ws = tids.map (fun tid =>
            (rt.sched tid).foldl (fun acc i => fadd acc (toInt32 (tasks.getD i 0))) 0)
        ∧ timesOf ws = tids.map (fun tid => ((rt.sched tid).map rt.elapsed).sum) := by
  intro tids
  induction tids with
  | nil => intro array _ _ _; exact ⟨array, [], rfl, rfl, rfl⟩
  | cons t ts ih =>
    intro array hnd hcost hb
    simp only [List.map_cons, List.flatten_cons] at hnd hcost
    obtain ⟨array1, w1, hfold, hload, htime, hlen, hrest, hb1⟩ :=
      cache_worker_fold fuel tasks load rt hl hfuel ((ts.map rt.sched).flatten) (rt.sched t)
        array ⟨0, 0, 0⟩ hnd hcost hb
    obtain ⟨array2, ws, hthreads, hloads, htimes⟩ := ih array1
      (List.Nodup.of_append_right hnd)
      (fun k hk => ⟨by rw [hlen]; exact (hcost k (List.mem_append_right _ hk)).1, hrest k hk⟩)
      hb1
    refine ⟨array2, w1 :: ws, ?_, ?_, ?_⟩
    · rw [cache_threads, cache_worker, hfold]
      simp only [Option.some_bind]
      rw [hthreads]; rfl
    · simp only [loadsOf, List.map_cons] at hloads ⊢
      rw [hloads, hload]
    · simp only [timesOf, List.map_cons] at htimes ⊢
      rw [htimes, htime]; simp

/-- With a load that fits `unsigned` and enough fuel, the parallel region of
`benchmark_cache` finishes and records for each thread the accumulated
original costs of its indices, although it reads them from the shared array
that the kernel modifies. -/
theorem cache_loads_eq (fuel : Nat) (tasks : List Nat) (nthreads load : Int) (rt : Runtime α)
    (hl : load < 4294967296) (hfuel : 4294967296 ≤ fuel)
    (hu : ∀ c ∈ tasks, c < 4294967296) (hd : Dispatches rt nthreads tasks.length) :
    (cache_region fuel tasks tasks.length nthreads load rt).map loadsOf
      = some ((List.range nthreads.toNat).map (fun tid =>
          (rt.sched tid).foldl (fun acc i => fadd acc (toInt32 (tasks.getD i 0))) 0)) := by
  have hnd : (((List.range nthreads.toNat).map rt.sched).flatten).Nodup :=
    hd.nodup_iff.mpr (List.nodup_range _)
  have hb : ∀ k, tasks.getD k 0 < 4294967296 := by
    intro k
    by_cases hk : k < tasks.length
    · rw [List.getD_eq_getElem _ _ hk]; exact hu _ (List.getElem_mem hk)
    · rw [List.getD_eq_default _ _ (by omega)]; norm_num
  obtain ⟨array2, ws, hthreads, hloads, -⟩ :=
    cache_threads_loads fuel tasks load rt hl hfuel (List.range nthreads.toNat) tasks hnd
      (fun k hk => ⟨List.mem_range.mp (hd.mem_iff.mp hk), rfl⟩) hb
  rw [cache_region, List.take_length, hthreads]
  simp only [Option.map_some', hloads]

/-- Conservation of work in `benchmark_cache` for costs below `2^31` whose sum
is below `2^53`, with a load that fits `unsigned`. -/
theorem cache_conservation_small (fuel : Nat) (tasks : List Nat) (nthreads load : Int)
    (rt : Runtime α) (hl : load < 4294967296) (hfuel : 4294967296 ≤ fuel)
    (hsmall : ∀ c ∈ tasks, c < 2147483648) (hsum : tasks.sum < 9007199254740992)
    (hd : Dispatches rt nthreads tasks.length) :
    (cache_region fuel tasks tasks.length nthreads load rt).map (fun ws => (loadsOf ws).sum)
      = some (tasks.sum : Int) := by
  have h := cache_loads_eq fuel tasks nthreads load rt hl hfuel
    (fun c hc => by have := hsmall c hc; omega) hd
  have h1 : (cache_region fuel tasks tasks.length nthreads load rt).map
      (fun ws => (loadsOf ws).sum)
      = ((cache_region fuel tasks tasks.length nthreads load rt).map loadsOf).map List.sum := by
    cases cache_region fuel tasks tasks.length nthreads load rt <;> rfl
  rw [h1, h]
  simp only [Option.map_some', Option.some.injEq]
  exact loads_sum_exact tasks nthreads rt hsmall hsum hd

end CacheExecutor

/-! ## The executor at costs that do not fit `int` -/

/-- C6, failing input: one task of cost `3000000000` and two threads, the
task going to thread `0`. Thread `0` records the load `-1294967296`, which is
negative; the idle thread `1` records load `0` and time `0`. -/
theorem negative_load_at_int_work :
    Dispatches (serial ℝ 1) 2 1
      ∧ (cpu_region 4294967296 [3000000000] 2 1 (serial ℝ 1)).map loadsOf
          = some [-1294967296, 0]
      ∧ (cpu_region 4294967296 [3000000000] 2 1 (serial ℝ 1)).map timesOf = some [0, 0]
      ∧ (-1294967296 : Int) < 0 := by
  refine ⟨?_, ?_, ?_, by norm_num⟩
  · simp [Dispatches, serial, range_one_eq, range_two_eq]
  · rw [cpu_loads_eq 4294967296 [3000000000] 2 1 (serial ℝ 1) (by norm_num)
      ⟨by norm_num, by decide⟩]
    have hv : fadd 0 (toInt32 3000000000) = -1294967296 := by decide
    simp [serial, range_one_eq, range_two_eq, hv]
  · rw [cpu_times_eq 4294967296 [3000000000] 2 1 (serial ℝ 1) (by norm_num)
      ⟨by norm_num, by decide⟩]
    simp [serial, range_one_eq, range_two_eq]

/-- C9, failing input: one task of cost `2147483648` and two threads (more
threads than tasks), the task going to thread `0`. The `loads` array is
`[-2147483648, 0]`: it holds a `0`, but the minimum `benchmark_dump` computes
is `-2147483648`, and the slowdown `0 / -2147483648` has a non-zero divisor. -/
theorem slowdown_divisor_at_int_work :
    Dispatches (serial ℝ 1) 2 1
      ∧ (cpu_region 4294967296 [2147483648] 2 1 (serial ℝ 1)).map loadsOf
          = some [-2147483648, 0]
      ∧ (benchmark_dump Real.sqrt ([-2147483648, 0] : List ℝ)).min = -2147483648
      ∧ (benchmark_dump Real.sqrt ([-2147483648, 0] : List ℝ)).max = 0
      ∧ (benchmark_dump Real.sqrt ([-2147483648, 0] : List ℝ)).slowdown
          = some (0 / -2147483648)
      ∧ (benchmark_dump Real.sqrt ([-2147483648, 0] : List ℝ)).slowdown ≠ none := by
  have hmin : (benchmark_dump Real.sqrt ([-2147483648, 0] : List ℝ)).min = -2147483648 := by
    simp only [benchmark_dump, dump_scan, dump_scan_body, UINT_MAX, List.foldl_cons,
      List.foldl_nil]
    norm_num
  have hmax : (benchmark_dump Real.sqrt ([-2147483648, 0] : List ℝ)).max = 0 := by
    simp only [benchmark_dump, dump_scan, dump_scan_body, UINT_MAX, List.foldl_cons,
      List.foldl_nil]
    norm_num
  have hsl : (benchmark_dump Real.sqrt ([-2147483648, 0] : List ℝ)).slowdown
      = some (0 / -2147483648) := by
    have h : (benchmark_dump Real.sqrt ([-2147483648, 0] : List ℝ)).slowdown
        = fdiv (benchmark_dump Real.sqrt ([-2147483648, 0] : List ℝ)).max
            (benchmark_dump Real.sqrt ([-2147483648, 0] : List ℝ)).min := rfl
    rw [h, hmin, hmax, fdiv_of_ne _ _ (by norm_num)]
  refine ⟨?_, ?_, hmin, hmax, hsl, ?_⟩
  · simp [Dispatches, serial, range_one_eq, range_two_eq]
  · rw [cpu_loads_eq 4294967296 [2147483648] 2 1 (serial ℝ 1) (by norm_num)
      ⟨by norm_num, by decide⟩]
    have hv : fadd 0 (toInt32 2147483648) = -2147483648 := by decide
    simp [serial, range_one_eq, range_two_eq, hv]
  · rw [hsl]; simp

/-! ## Initialisation of the metric arrays -/

/-- C10, failing input: two threads, the stack bytes under `loads` and `times`
all `255`. The call `memset(loads, 0, nthreads*sizeof(unsigned))` clears eight
of the sixteen bytes of `loads`: entry `0` is zero, entry `1` keeps its eight
bytes `255`, which is not the value zero. The `times` array is cleared whole. -/
theorem loads_not_cleared :
    slot (init_metrics 2 (List.replicate 16 255) (List.replicate 16 255)).2 0
        = [0, 0, 0, 0, 0, 0, 0, 0]
      ∧ slot (init_metrics 2 (List.replicate 16 255) (List.replicate 16 255)).2 1
        = [255, 255, 255, 255, 255, 255, 255, 255]
      ∧ slotIsZero (slot (init_metrics 2 (List.replicate 16 255) (List.replicate 16 255)).2 1)
        = false
      ∧ slotIsZero (slot (init_metrics 2 (List.replicate 16 255) (List.replicate 16 255)).1 0)
        = true
      ∧ slotIsZero (slot (init_metrics 2 (List.replicate 16 255) (List.replicate 16 255)).1 1)
        = true := by
  decide

theorem memset_full (mem : List Nat) (c n : Nat) (h : mem.length ≤ n) :
    memset mem c n = List.replicate mem.length c := by
  unfold memset
  rw [List.take_of_length_le h, List.drop_of_length_le h, List.append_nil]
  exact List.map_const' mem c

/-- The `times` array is cleared whole: each of its `nthreads` entries is
eight zero bytes after the `memset` calls, whatever the stack held. -/
theorem times_cleared (nthreads : Int) (times loads : List Nat)
    (hlen : times.length = nthreads.toNat * 8) (k : Nat) (hk : k < nthreads.toNat) :
    slot (init_metrics nthreads times loads).1 k = [0, 0, 0, 0, 0, 0, 0, 0] := by
  simp only [init_metrics, sizeof_double, slot]
  rw [memset_full _ _ _ (by omega), hlen, List.drop_replicate, List.take_replicate]
  have : min 8 (nthreads.toNat * 8 - 8 * k) = 8 := by omega
  rw [this]; rfl

/-- The `loads` array is cleared in its first half only: the bytes from offset
`nthreads * 4` on are those the stack held. -/
theorem loads_upper_half_kept (nthreads : Int) (times loads : List Nat)
    (hlen : loads.length = nthreads.toNat * 8) :
    (init_metrics nthreads times loads).2.drop (nthreads.toNat * 4)
      = loads.drop (nthreads.toNat * 4) := by
  simp only [init_metrics, sizeof_unsigned, memset]
  rw [List.drop_append_eq_append_drop]
  simp only [List.length_map, List.length_take]
  have h1 : List.drop (nthreads.toNat * 4)
      (List.map (fun _ => 0) (List.take (nthreads.toNat * 4) loads)) = [] := by
    apply List.drop_of_length_le
    simp only [List.length_map, List.length_take]; omega
  rw [h1, List.nil_append, List.drop_drop]
  congr 1
  omega

/-! ## The orchestrator -/

section Orchestrator

variable {α : Type} [LinearOrderedField α]

/-- With enough fuel `benchmark_cpu` runs to its end: allocation, workload
hint, the two dumps, release. -/
theorem benchmark_cpu_runs (sqrt : α → α) (fuel : Nat) (rt : Runtime α) (tasks : List Nat)
    (ntasks : Nat) (nthreads load : Int) (hl : load < 9223372036854775808)
    (hfuel : 4294967296 ≤ fuel ∧ load.toNat < fuel) :
    ∃ stats_load stats_time, benchmark_cpu sqrt fuel rt tasks ntasks nthreads load
      = some [Event.smalloc (ntasks * sizeof_unsigned),
          Event.omp_set_workload (tasks.take ntasks) ntasks,
          Event.dump Label.cpu_load stats_load, Event.dump Label.cpu_time stats_time,
          Event.free] := by
  unfold benchmark_cpu
  rw [cpu_region_eq fuel tasks nthreads load rt hl hfuel]
  exact ⟨_, _, rfl⟩

/-- C5: `benchmark` aborts if and only if `tasks` is null or `ntasks = 0` or
`nthreads <= 0` or `load <= 0`; an abort comes with no effect produced (no
allocation, no workload hint, no output); and for every input that meets the
four preconditions the call goes on to `benchmark_cpu`, whose effects (with
enough fuel: allocation, workload hint, two dumps, release) open the trace. -/
theorem benchmark_aborts_iff (sqrt : α → α) (fuel : Nat) (cache : Bool)
    (rt_cpu rt_cache : Runtime α) (tasks : Option (List Nat)) (ntasks : Nat)
    (nthreads load : Int) :
    ((∃ trace, benchmark sqrt fuel cache rt_cpu rt_cache tasks ntasks nthreads load
        = Outcome.aborted trace)
      ↔ (tasks = none ∨ ntasks = 0 ∨ nthreads ≤ 0 ∨ load ≤ 0))
    ∧ (∀ trace, benchmark sqrt fuel cache rt_cpu rt_cache tasks ntasks nthreads load
        = Outcome.aborted trace → trace = [])
    ∧ (∀ ts, tasks = some ts → 0 < ntasks → 0 < nthreads → 0 < load →
        benchmark sqrt fuel cache rt_cpu rt_cache tasks ntasks nthreads load
          = Outcome.ran ((benchmark_cpu sqrt fuel rt_cpu ts ntasks nthreads load).bind
              (fun t1 => if cache then
                (benchmark_cache sqrt fuel rt_cache ts ntasks nthreads load).map
                  (fun t2 => t1 ++ t2)
                else some t1))
        ∧ (4294967296 ≤ fuel ∧ load.toNat < fuel → load < 9223372036854775808 →
            ∃ t1, benchmark_cpu sqrt fuel rt_cpu ts ntasks nthreads load = some t1
              ∧ t1.head? = some (Event.smalloc (ntasks * sizeof_unsigned))
              ∧ (cache = false →
                  benchmark sqrt fuel cache rt_cpu rt_cache tasks ntasks nthreads load
                    = Outcome.ran (some t1)))) := by
  cases tasks with
  | none =>
    refine ⟨⟨fun _ => Or.inl rfl, fun _ => ⟨[], rfl⟩⟩, ?_, ?_⟩
    · intro trace h
      simp only [benchmark, Outcome.aborted.injEq] at h
      exact h.symm
    · intro ts h; cases h
  | some ts0 =>
    by_cases h1 : ntasks > 0
    · by_cases h2 : nthreads > 0
      · by_cases h3 : load > 0
        · have hrun : benchmark sqrt fuel cache rt_cpu rt_cache (some ts0) ntasks nthreads load
              = Outcome.ran ((benchmark_cpu sqrt fuel rt_cpu ts0 ntasks nthreads load).bind
                  (fun t1 => if cache then
                    (benchmark_cache sqrt fuel rt_cache ts0 ntasks nthreads load).map
                      (fun t2 => t1 ++ t2)
                    else some t1)) := by
            simp only [benchmark, h1, h2, h3, not_true_eq_false, if_false]
          refine ⟨⟨?_, ?_⟩, ?_, ?_⟩
          · rintro ⟨trace, h⟩
            rw [hrun] at h; cases h
          · rintro (h | h | h | h)
            · cases h
            · omega
            · omega
            · omega
          · intro trace h
            rw [hrun] at h; cases h
          · intro ts hts _ _ _
            cases hts
            refine ⟨hrun, ?_⟩
            intro hfuel hl
            obtain ⟨s1, s2, ht⟩ :=
              benchmark_cpu_runs sqrt fuel rt_cpu ts0 ntasks nthreads load hl hfuel
            refine ⟨_, ht, rfl, ?_⟩
            intro hc
            rw [hrun, ht, hc]
            rfl
        · have hab : benchmark sqrt fuel cache rt_cpu rt_cache (some ts0) ntasks nthreads load
              = Outcome.aborted [] := by
            simp only [benchmark, h1, h2, h3, not_true_eq_false, not_false_eq_true, if_false,
              if_true]
          refine ⟨⟨fun _ => Or.inr (Or.inr (Or.inr (by omega))), fun _ => ⟨[], hab⟩⟩, ?_, ?_⟩
          · intro trace h
            rw [hab] at h
            simp only [Outcome.aborted.injEq] at h
            exact h.symm
          · intro ts _ _ _ h; exact absurd h h3
      · have hab : benchmark sqrt fuel cache rt_cpu rt_cache (some ts0) ntasks nthreads load
            = Outcome.aborted [] := by
          simp only [benchmark, h1, h2, not_true_eq_false, not_false_eq_true, if_false, if_true]
        refine ⟨⟨fun _ => Or.inr (Or.inr (Or.inl (by omega))), fun _ => ⟨[], hab⟩⟩, ?_, ?_⟩
        · intro trace h
          rw [hab] at h
          simp only [Outcome.aborted.injEq] at h
          exact h.symm
        · intro ts _ _ h _; exact absurd h h2
    · have hab : benchmark sqrt fuel cache rt_cpu rt_cache (some ts0) ntasks nthreads load
          = Outcome.aborted [] := by
        simp only [benchmark, h1, not_false_eq_true, if_true]
      refine ⟨⟨fun _ => Or.inr (Or.inl (by omega)), fun _ => ⟨[], hab⟩⟩, ?_, ?_⟩
      · intro trace h
        rw [hab] at h
        simp only [Outcome.aborted.injEq] at h
        exact h.symm
      · intro ts _ h _ _; exact absurd h h1

end Orchestrator

/-- Witness of C5: one task of cost `1`, one thread, load `1`, no cache
benchmark; the call does not abort and runs `benchmark_cpu`. -/
theorem benchmark_aborts_iff_witness :
    (¬ ∃ trace, benchmark Real.sqrt 4294967296 false (serial ℝ 1) (serial ℝ 1) (some [1]) 1 1 1
        = Outcome.aborted trace)
      ∧ ∃ t1, benchmark_cpu Real.sqrt 4294967296 (serial ℝ 1) [1] 1 1 1 = some t1
          ∧ benchmark Real.sqrt 4294967296 false (serial ℝ 1) (serial ℝ 1) (some [1]) 1 1 1
              = Outcome.ran (some t1) := by
  have h := benchmark_aborts_iff Real.sqrt 4294967296 false (serial ℝ 1) (serial ℝ 1)
    (some [1]) 1 1 1
  refine ⟨?_, ?_⟩
  · rw [h.1]; simp
  · obtain ⟨t1, ht, -, hr⟩ := (h.2.2 [1] rfl (by norm_num) (by norm_num) (by norm_num)).2
      ⟨by norm_num, by decide⟩ (by norm_num)
    exact ⟨t1, ht, hr rfl⟩

/-! ## The minimum of the reporter -/

/-- C2, failing input: for the one-element metric array `[6442450941]` (the
load of a single worker given three tasks of cost `2147483647`) the minimum of
`benchmark_dump` is the initial `UINT_MAX = 4294967295`, which is no element of
the array, and the slowdown is `6442450941 / 4294967295`, not `1`. -/
theorem benchmark_dump_min_sentinel :
    (cpu_region 4294967296 [2147483647, 2147483647, 2147483647] 1 1 (serial ℝ 3)).map loadsOf
        = some [6442450941]
      ∧ (benchmark_dump Real.sqrt ([6442450941] : List ℝ)).min = 4294967295
      ∧ ¬ IsMin ([6442450941] : List ℝ) (benchmark_dump Real.sqrt ([6442450941] : List ℝ)).min
      ∧ (benchmark_dump Real.sqrt ([6442450941] : List ℝ)).max = 6442450941
      ∧ (benchmark_dump Real.sqrt ([6442450941] : List ℝ)).slowdown
          = some (6442450941 / 4294967295)
      ∧ (benchmark_dump Real.sqrt ([6442450941] : List ℝ)).slowdown ≠ some 1 := by
  have hmin : (benchmark_dump Real.sqrt ([6442450941] : List ℝ)).min = 4294967295 := by
    simp only [benchmark_dump, dump_scan, dump_scan_body, UINT_MAX, List.foldl_cons,
      List.foldl_nil]
    norm_num
  have hmax : (benchmark_dump Real.sqrt ([6442450941] : List ℝ)).max = 6442450941 := by
    simp only [benchmark_dump, dump_scan, dump_scan_body, UINT_MAX, List.foldl_cons,
      List.foldl_nil]
    norm_num
  have hsl : (benchmark_dump Real.sqrt ([6442450941] : List ℝ)).slowdown
      = some (6442450941 / 4294967295) := by
    have h : (benchmark_dump Real.sqrt ([6442450941] : List ℝ)).slowdown
        = fdiv (benchmark_dump Real.sqrt ([6442450941] : List ℝ)).max
            (benchmark_dump Real.sqrt ([6442450941] : List ℝ)).min := rfl
    rw [h, hmin, hmax, fdiv_of_ne _ _ (by norm_num)]
  refine ⟨?_, hmin, ?_, hmax, hsl, ?_⟩
  · rw [cpu_loads_eq 4294967296 _ 1 1 (serial ℝ 3) (by norm_num) ⟨by norm_num, by decide⟩]
    have hr : List.range 3 = [0, 1, 2] := rfl
    have hw : toInt32 2147483647 = 2147483647 := by decide
    have h1 : fadd 0 2147483647 = 2147483647 := by decide
    have h2 : fadd 2147483647 2147483647 = 4294967294 := by decide
    have h3 : fadd 4294967294 2147483647 = 6442450941 := by decide
    simp [serial, range_one_eq, hr, hw, h1, h2, h3]
  · rw [hmin]; rintro ⟨h, -⟩
    simp only [List.mem_singleton] at h
    norm_num at h
  · rw [hsl]; simp only [ne_eq, Option.some.injEq]; norm_num

end Benchmark
